import Mathlib

/-!
Verification of the marvin-cli Document Store and Import/Merge Engine.

This file gives a shallow embedding, in Lean 4, of the core modules of the
repository: the document codec (`src/storage/document.ts`), the document
store (`src/storage/store.ts`), the conflict resolver and cross-reference
rewriter (`src/import/resolver.ts`), and the source manifest manager
(`src/sources/manifest.ts`).  Filesystem state is made explicit: a store is
a finite map from (directory, filename) to the parsed file; the clock
(`new Date().toISOString()`) is passed as an argument.  Machine strings are
Lean `String`s, numbers are `Nat`.

Definitions are translated from the TypeScript source; the few places that
delegate to third-party libraries (gray-matter / js-yaml for the
frontmatter block, the `yaml` package for the manifest) are modelled from
the specification and marked as such in their doc comments.
-/

namespace Marvin

/-- JS `\w` word-character class: `[A-Za-z0-9_]`. -/
def isWordChar (c : Char) : Bool :=
  ('A' ≤ c && c ≤ 'Z') || ('a' ≤ c && c ≤ 'z') || ('0' ≤ c && c ≤ '9') || c = '_'

/-- Uppercase ASCII letter, the character class `[A-Z]` of the source regexes. -/
def isUpperC (c : Char) : Bool := 'A' ≤ c && c ≤ 'Z'

/-- ASCII digit, the character class `\d` of the source regexes. -/
def isDigitC (c : Char) : Bool := '0' ≤ c && c ≤ '9'

/-- Whitespace trimmed by JS `String.prototype.trim` (ASCII portion). -/
def isWsC (c : Char) : Bool := c = ' ' || c = '\n' || c = '\t' || c = '\r'

/-- JS `String.prototype.trim` on a character list. -/
def trimChars (cs : List Char) : List Char :=
  ((cs.dropWhile isWsC).reverse.dropWhile isWsC).reverse

/-- JS `String.prototype.trim`. -/
def jsTrim (s : String) : String := String.mk (trimChars s.data)

/-- Numeric value of a list of ASCII digit characters (`parseInt(_, 10)`). -/
def digitsVal (ds : List Char) : Nat :=
  ds.foldl (fun acc c => acc * 10 + (c.toNat - '0'.toNat)) 0

/-- The ASCII digit character for a value below ten. -/
def digitChar (n : Nat) : Char := Char.ofNat ('0'.toNat + n)

/-- Decimal digits of a natural number, most significant first (fuelled;
`natDec` supplies sufficient fuel). -/
def natDigitsF : Nat → Nat → List Char
  | 0, _ => []
  | fuel + 1, n => if n < 10 then [digitChar n] else natDigitsF fuel (n / 10) ++ [digitChar (n % 10)]

/-- JS `String(n)` for a natural number. -/
def natDec (n : Nat) : String := String.mk (natDigitsF (n + 1) n)

/-- `String(n).padStart(3, "0")`: decimal rendering zero-padded to width 3. -/
def pad3 (n : Nat) : String :=
  let s := natDec n
  if s.length < 3 then String.mk (List.replicate (3 - s.length) '0') ++ s else s

/-- Strip an exact prefix off a character list, returning the remainder. -/
def dropPrefixQ : List Char → List Char → Option (List Char)
  | [], s => some s
  | _ :: _, [] => none
  | p :: ps, c :: cs => if p = c then dropPrefixQ ps cs else none

theorem dropPrefixQ_append (p s : List Char) : dropPrefixQ p (p ++ s) = some s := by
  induction p with
  | nil => rfl
  | cons c cs ih => simp [dropPrefixQ, ih]

theorem dropPrefixQ_eq_some {p s r : List Char} (h : dropPrefixQ p s = some r) :
    s = p ++ r := by
  induction p generalizing s with
  | nil => simpa [dropPrefixQ] using h
  | cons c cs ih =>
    cases s with
    | nil => simp [dropPrefixQ] at h
    | cons d ds =>
      by_cases hc : c = d
      · subst hc
        simp only [dropPrefixQ, if_pos rfl] at h
        simpa using ih h
      · simp [dropPrefixQ, hc] at h

/-- Split a character list on newline characters (`"a\nb" ↦ [a, b]`). -/
def splitNl : List Char → List (List Char)
  | [] => [[]]
  | c :: rest =>
    if c = '\n' then [] :: splitNl rest
    else
      match splitNl rest with
      | [] => [[c]]
      | l :: ls => (c :: l) :: ls

/-- Re-join lines with newline separators; inverse of `splitNl`. -/
def joinNl : List (List Char) → List Char
  | [] => []
  | [l] => l
  | l :: ls => l ++ '\n' :: joinNl ls

theorem splitNl_ne_nil (cs : List Char) : splitNl cs ≠ [] := by
  cases cs with
  | nil => simp [splitNl]
  | cons c rest =>
    by_cases h : c = '\n'
    · simp [splitNl, h]
    · simp only [splitNl, if_neg h]
      cases splitNl rest <;> simp

theorem joinNl_splitNl (cs : List Char) : joinNl (splitNl cs) = cs := by
  induction cs with
  | nil => rfl
  | cons c rest ih =>
    by_cases h : c = '\n'
    · subst h
      cases hs : splitNl rest with
      | nil => exact absurd hs (splitNl_ne_nil rest)
      | cons l ls =>
        rw [hs] at ih
        rw [show splitNl ('\n' :: rest) = [] :: splitNl rest from by simp [splitNl], hs]
        simpa [joinNl] using ih
    · cases hs : splitNl rest with
      | nil => exact absurd hs (splitNl_ne_nil rest)
      | cons l ls =>
        rw [hs] at ih
        rw [show splitNl (c :: rest) = (c :: l) :: ls from by simp [splitNl, h, hs]]
        cases ls with
        | nil => simpa [joinNl] using ih
        | cons l2 ls2 => simp only [joinNl] at ih ⊢; simp [ih]

theorem splitNl_no_nl_append {a : List Char} (ha : '\n' ∉ a) (b : List Char) :
    splitNl (a ++ '\n' :: b) = a :: splitNl b := by
  induction a with
  | nil => simp [splitNl]
  | cons c cs ih =>
    have hc : c ≠ '\n' := fun h => ha (h ▸ List.mem_cons_self c cs)
    have hcs : '\n' ∉ cs := fun h => ha (List.mem_cons_of_mem c h)
    simp only [List.cons_append, splitNl, if_neg hc, List.append_eq]
    rw [ih hcs]

/-! ## Frontmatter values and the metadata-block codec

`parseDocument` / `serializeDocument` in `src/storage/document.ts` delegate
the metadata block to the third-party gray-matter/js-yaml codec, which is
not part of this repository.  The block codec below is therefore modelled
from the spec (§6): "a text file beginning with a structured metadata block
(the Document's frontmatter, one key per line, nested structures for
lists/maps) followed by a blank line and the free-text content body". -/

/-- A frontmatter field value: a string, or a list of strings (`tags`). -/
inductive FmValue where
  | str : String → FmValue
  | list : List String → FmValue
deriving DecidableEq, Repr

/-- Escape one character for a double-quoted scalar. -/
def escChar (c : Char) : List Char :=
  if c = '\\' then ['\\', '\\']
  else if c = '"' then ['\\', '"']
  else if c = '\n' then ['\\', 'n']
  else [c]

/-- Escape a string body for a double-quoted scalar. -/
def escChars (cs : List Char) : List Char := (cs.map escChar).flatten

/-- A double-quoted scalar. -/
def quoteStr (s : String) : List Char := '"' :: (escChars s.data ++ ['"'])

theorem escChar_no_nl (c : Char) : '\n' ∉ escChar c := by
  unfold escChar
  by_cases h1 : c = '\\' <;> by_cases h2 : c = '"' <;> by_cases h3 : c = '\n' <;>
    (simp_all; try exact fun h => h3 h.symm)

theorem escChars_no_nl (cs : List Char) : '\n' ∉ escChars cs := by
  intro h
  simp only [escChars, List.mem_flatten, List.mem_map] at h
  obtain ⟨l, ⟨c, _, rfl⟩, hmem⟩ := h
  exact escChar_no_nl c hmem

/-- Parse the body of a double-quoted scalar up to its closing quote;
returns the unescaped body and the remainder after the quote. -/
def parseQuotedBody : List Char → Option (List Char × List Char)
  | [] => none
  | '"' :: rest => some ([], rest)
  | '\\' :: [] => none
  | '\\' :: d :: rest2 =>
    match parseQuotedBody rest2 with
    | none => none
    | some (s, r) => some ((if d = 'n' then '\n' else d) :: s, r)
  | c :: rest =>
    match parseQuotedBody rest with
    | none => none
    | some (s, r) => some (c :: s, r)

theorem parseQuotedBody_esc (cs r : List Char) :
    parseQuotedBody (escChars cs ++ '"' :: r) = some (cs, r) := by
  induction cs with
  | nil => simp [escChars, parseQuotedBody]
  | cons c cs ih =>
    have hstep : escChars (c :: cs) = escChar c ++ escChars cs := by
      simp [escChars]
    rw [hstep]
    unfold escChar
    by_cases h1 : c = '\\'
    · subst h1; simp [parseQuotedBody, ih]
    · by_cases h2 : c = '"'
      · subst h2; simp [parseQuotedBody, h1, ih]
      · by_cases h3 : c = '\n'
        · subst h3; simp [parseQuotedBody, ih]
        · simp [parseQuotedBody, h1, h2, ih, h3]

/-- Split a line at its first colon. -/
def splitAtColon : List Char → Option (List Char × List Char)
  | [] => none
  | c :: rest =>
    if c = ':' then some ([], rest)
    else (splitAtColon rest).map (fun p => (c :: p.1, p.2))

theorem splitAtColon_append {k : List Char} (hk : ':' ∉ k) (t : List Char) :
    splitAtColon (k ++ ':' :: t) = some (k, t) := by
  induction k with
  | nil => simp [splitAtColon]
  | cons c cs ih =>
    have hc : c ≠ ':' := fun h => hk (h ▸ List.mem_cons_self c cs)
    have hcs : ':' ∉ cs := fun h => hk (List.mem_cons_of_mem c h)
    simp [splitAtColon, hc, ih hcs]

/-- Dump one key/value pair as metadata-block lines. -/
def dumpValue (k : String) (v : FmValue) : List (List Char) :=
  match v with
  | .str s => [k.data ++ ':' :: ' ' :: quoteStr s]
  | .list xs => (k.data ++ [':']) :: xs.map (fun x => ' ' :: ' ' :: '-' :: ' ' :: quoteStr x)

/-- Dump an ordered key/value map as metadata-block lines. -/
def dumpPairs (ps : List (String × FmValue)) : List (List Char) :=
  (ps.map (fun p => dumpValue p.1 p.2)).flatten

/-- Parse one list-item line (`  - "…"`). -/
def parseItemLine (l : List Char) : Option String :=
  match l with
  | ' ' :: ' ' :: '-' :: ' ' :: '"' :: rest =>
    match parseQuotedBody rest with
    | some (s, []) => some (String.mk s)
    | _ => none
  | _ => none

/-- Whether a line begins with a space (continuation/item line). -/
def lineStartsSpace : List Char → Bool
  | [] => false
  | c :: _ => c = ' '

/-- Consume the run of list-item lines following a list header. -/
def takeItems : List (List Char) → Option (List String × List (List Char))
  | [] => some ([], [])
  | line :: rest =>
    if lineStartsSpace line then
      match parseItemLine line with
      | none => none
      | some s =>
        match takeItems rest with
        | none => none
        | some (ss, r) => some (s :: ss, r)
    else some ([], line :: rest)

/-- Parse metadata-block lines into an ordered key/value map (fuelled; the
wrapper `parsePairs` supplies fuel that is always sufficient). -/
def parsePairsF : Nat → List (List Char) → Option (List (String × FmValue))
  | _, [] => some []
  | 0, _ :: _ => none
  | fuel + 1, line :: rest =>
    if lineStartsSpace line then none
    else
      match splitAtColon line with
      | none => none
      | some (k, after) =>
        match after with
        | [] =>
          match takeItems rest with
          | none => none
          | some (xs, r) =>
            match parsePairsF fuel r with
            | none => none
            | some ps => some ((String.mk k, FmValue.list xs) :: ps)
        | ' ' :: '"' :: vrest =>
          match parseQuotedBody vrest with
          | some (s, []) =>
            match parsePairsF fuel rest with
            | none => none
            | some ps => some ((String.mk k, FmValue.str (String.mk s)) :: ps)
          | _ => none
        | _ => none

/-- Parse metadata-block lines into an ordered key/value map. -/
def parsePairs (lines : List (List Char)) : Option (List (String × FmValue)) :=
  parsePairsF lines.length lines

/-- A key that dumps to an unambiguous line: nonempty, no colon, no
newline, and not starting with a space. -/
def KeyOk (k : String) : Bool :=
  !k.data.isEmpty && k.data.all (fun c => c ≠ ':' && c ≠ '\n') && k.data.head? ≠ some ' '

/-- The item lines produced by dumping a string list. -/
def itemLines (xs : List String) : List (List Char) :=
  xs.map (fun x => ' ' :: ' ' :: '-' :: ' ' :: quoteStr x)

/-- First line, if any, does not begin with a space. -/
def headNotSpace : List (List Char) → Bool
  | [] => true
  | l :: _ => !lineStartsSpace l

theorem parseItemLine_quote (x : String) :
    parseItemLine (' ' :: ' ' :: '-' :: ' ' :: quoteStr x) = some x := by
  rw [show quoteStr x = '"' :: (escChars x.data ++ ['"']) from rfl]
  show (match parseQuotedBody (escChars x.data ++ '"' :: []) with
    | some (s, []) => some (String.mk s)
    | _ => none) = some x
  rw [parseQuotedBody_esc]

theorem takeItems_itemLines (xs : List String) {rest : List (List Char)}
    (h : headNotSpace rest = true) :
    takeItems (itemLines xs ++ rest) = some (xs, rest) := by
  induction xs with
  | nil =>
    simp only [itemLines, List.map_nil, List.nil_append]
    cases rest with
    | nil => rfl
    | cons l ls =>
      have hl : lineStartsSpace l = false := by
        simp only [headNotSpace] at h
        cases hls : lineStartsSpace l
        · rfl
        · rw [hls] at h; simp at h
      simp [takeItems, hl]
  | cons x xs ih =>
    simp only [itemLines, List.map_cons, List.cons_append]
    rw [show itemLines xs = xs.map (fun x => ' ' :: ' ' :: '-' :: ' ' :: quoteStr x) from rfl]
      at ih
    simp only [takeItems, lineStartsSpace, parseItemLine_quote, ih]
    simp

/-- All keys of a key/value map are dump-safe. -/
def KeysOk (ps : List (String × FmValue)) : Prop :=
  ∀ p ∈ ps, KeyOk p.1 = true

theorem keyOk_ne_nil {k : String} (h : KeyOk k = true) : k.data ≠ [] := by
  simp only [KeyOk, Bool.and_eq_true] at h
  simpa using h.1.1

theorem keyOk_no_colon {k : String} (h : KeyOk k = true) : ':' ∉ k.data := by
  simp only [KeyOk, Bool.and_eq_true, List.all_eq_true] at h
  intro hmem
  have := h.1.2 ':' hmem
  simp at this

theorem keyOk_no_nl {k : String} (h : KeyOk k = true) : '\n' ∉ k.data := by
  simp only [KeyOk, Bool.and_eq_true, List.all_eq_true] at h
  intro hmem
  have := h.1.2 '\n' hmem
  simp at this

theorem keyOk_startsSpace {k : String} (h : KeyOk k = true) (t : List Char) :
    lineStartsSpace (k.data ++ t) = false := by
  simp only [KeyOk, Bool.and_eq_true] at h
  cases hd : k.data with
  | nil => exact absurd (by simpa using hd) (by simpa using h.1.1)
  | cons c cs =>
    have hc : ¬(c = ' ') := by
      have := h.2
      rw [hd] at this
      simpa using this
    simp [lineStartsSpace, hc]

theorem dumpPairs_cons (k : String) (v : FmValue) (ps : List (String × FmValue)) :
    dumpPairs ((k, v) :: ps) = dumpValue k v ++ dumpPairs ps := by
  simp [dumpPairs]

theorem dumpPairs_headNotSpace {ps : List (String × FmValue)} (h : KeysOk ps) :
    headNotSpace (dumpPairs ps) = true := by
  cases ps with
  | nil => rfl
  | cons p ps =>
    obtain ⟨k, v⟩ := p
    have hk : KeyOk k = true := h (k, v) (List.mem_cons_self _ _)
    rw [dumpPairs_cons]
    cases v with
    | str s =>
      simp only [dumpValue, List.singleton_append, headNotSpace]
      rw [show k.data ++ ':' :: ' ' :: quoteStr s = k.data ++ (':' :: ' ' :: quoteStr s) from rfl]
      rw [keyOk_startsSpace hk]
      rfl
    | list xs =>
      simp only [dumpValue, List.cons_append, headNotSpace]
      rw [keyOk_startsSpace hk]
      rfl

theorem parsePairsF_dump (ps : List (String × FmValue)) (fuel : Nat)
    (hfuel : (dumpPairs ps).length ≤ fuel) (hkeys : KeysOk ps) :
    parsePairsF fuel (dumpPairs ps) = some ps := by
  induction ps generalizing fuel with
  | nil => cases fuel <;> rfl
  | cons p ps ih =>
    obtain ⟨k, v⟩ := p
    have hk : KeyOk k = true := hkeys (k, v) (List.mem_cons_self _ _)
    have hkeys' : KeysOk ps := fun q hq => hkeys q (List.mem_cons_of_mem _ hq)
    rw [dumpPairs_cons] at hfuel ⊢
    cases v with
    | str s =>
      rw [show dumpValue k (FmValue.str s)
        = [k.data ++ ':' :: ' ' :: '"' :: (escChars s.data ++ ['"'])] from rfl] at hfuel ⊢
      simp only [List.singleton_append, List.length_cons] at hfuel ⊢
      cases fuel with
      | zero => omega
      | succ f =>
        have hsp : lineStartsSpace (k.data ++ ':' :: ' ' :: '"' :: (escChars s.data ++ ['"']))
            = false := keyOk_startsSpace hk _
        have hsplit := splitAtColon_append (keyOk_no_colon hk)
          (' ' :: '"' :: (escChars s.data ++ ['"']))
        have hq : parseQuotedBody (escChars s.data ++ ['"']) = some (s.data, []) :=
          parseQuotedBody_esc _ _
        have hrec : parsePairsF f (dumpPairs ps) = some ps := ih f (by omega) hkeys'
        simp only [parsePairsF, hsp, Bool.false_eq_true, if_false, hsplit, hq, hrec]

    | list xs =>
      simp only [dumpValue, List.cons_append, List.length_cons] at hfuel ⊢
      cases fuel with
      | zero => omega
      | succ f =>
        have hsp : lineStartsSpace (k.data ++ [':']) = false := keyOk_startsSpace hk _
        have hsplit : splitAtColon (k.data ++ [':']) = some (k.data, []) :=
          splitAtColon_append (keyOk_no_colon hk) []
        have hitems : takeItems (itemLines xs ++ dumpPairs ps) =
            some (xs, dumpPairs ps) :=
          takeItems_itemLines xs (dumpPairs_headNotSpace hkeys')
        have hrec : parsePairsF f (dumpPairs ps) = some ps := by
          refine ih f ?_ hkeys'
          have : (itemLines xs).length = xs.length := by simp [itemLines]
          simp only [List.length_append] at hfuel
          omega
        simp only [parsePairsF, hsp, Bool.false_eq_true, if_false, hsplit]
        rw [show (xs.map fun x => ' ' :: ' ' :: '-' :: ' ' :: quoteStr x) ++ dumpPairs ps
          = itemLines xs ++ dumpPairs ps from rfl]
        simp [hitems, hrec]

theorem parsePairs_dump (ps : List (String × FmValue)) (hkeys : KeysOk ps) :
    parsePairs (dumpPairs ps) = some ps :=
  parsePairsF_dump ps _ le_rfl hkeys

/-! ## Frontmatter records and the document codec -/

/-- `DocumentFrontmatter` from `src/storage/types.ts`: required fields,
the known optional fields, and the open-ended map of additional
type-specific fields (`[key: string]: unknown`). -/
structure DocumentFrontmatter where
  id : String
  title : String
  type : String
  status : String
  created : String
  updated : String
  owner : Option String := none
  priority : Option String := none
  tags : Option (List String) := none
  source : Option String := none
  extra : List (String × FmValue) := []
deriving DecidableEq, Repr

/-- `Document` from `src/storage/types.ts`. -/
structure Document where
  frontmatter : DocumentFrontmatter
  content : String
  filePath : String
deriving DecidableEq, Repr

/-- The key names carried by named `DocumentFrontmatter` fields. -/
def reservedKeys : List String :=
  ["id", "title", "type", "status", "created", "updated",
   "owner", "priority", "tags", "source"]

/-- Dump an optional string field. -/
def optStr (k : String) : Option String → List (String × FmValue)
  | none => []
  | some s => [(k, FmValue.str s)]

/-- Dump an optional string-list field. -/
def optList (k : String) : Option (List String) → List (String × FmValue)
  | none => []
  | some xs => [(k, FmValue.list xs)]

/-- Frontmatter as an ordered key/value map, in serialization order. -/
def toPairs (fm : DocumentFrontmatter) : List (String × FmValue) :=
  [("id", FmValue.str fm.id), ("title", FmValue.str fm.title),
   ("type", FmValue.str fm.type), ("status", FmValue.str fm.status),
   ("created", FmValue.str fm.created), ("updated", FmValue.str fm.updated)]
  ++ optStr "owner" fm.owner ++ optStr "priority" fm.priority
  ++ optList "tags" fm.tags ++ optStr "source" fm.source ++ fm.extra

/-- Look up a string-valued key. -/
def lookupStr (ps : List (String × FmValue)) (k : String) : Option String :=
  match ps.lookup k with
  | some (FmValue.str s) => some s
  | _ => none

/-- Rebuild a frontmatter record from a key/value map; fails when a
required field is absent or not a string. -/
def fromPairs (ps : List (String × FmValue)) : Option DocumentFrontmatter :=
  match lookupStr ps "id", lookupStr ps "title", lookupStr ps "type",
        lookupStr ps "status", lookupStr ps "created", lookupStr ps "updated" with
  | some i, some ti, some ty, some st, some cr, some up =>
    some { id := i, title := ti, type := ty, status := st, created := cr,
           updated := up,
           owner := lookupStr ps "owner", priority := lookupStr ps "priority",
           tags := (match ps.lookup "tags" with
                    | some (FmValue.list xs) => some xs
                    | _ => none),
           source := lookupStr ps "source",
           extra := ps.filter (fun p => !(reservedKeys.contains p.1)) }
  | _, _, _, _, _, _ => none

/-- Well-formed open fields: dump-safe keys that do not shadow a named
frontmatter field. -/
def FmOk (fm : DocumentFrontmatter) : Prop :=
  ∀ p ∈ fm.extra, KeyOk p.1 = true ∧ reservedKeys.contains p.1 = false

theorem lookup_append {κ α : Type} [BEq κ] (k : κ) (l1 l2 : List (κ × α)) :
    (l1 ++ l2).lookup k =
      match l1.lookup k with
      | some v => some v
      | none => l2.lookup k := by
  induction l1 with
  | nil => simp [List.lookup]
  | cons p l1 ih =>
    cases hx : (k == p.1)
    · simp [List.lookup, hx, ih]
    · simp [List.lookup, hx]

theorem lookup_extra_none {e : List (String × FmValue)}
    (he : ∀ p ∈ e, reservedKeys.contains p.1 = false) {k : String}
    (hk : reservedKeys.contains k = true) : e.lookup k = none := by
  induction e with
  | nil => rfl
  | cons p e ih =>
    obtain ⟨k', v⟩ := p
    have h1 : reservedKeys.contains k' = false := he (k', v) (List.mem_cons_self _ _)
    have hne : k ≠ k' := fun h => by rw [h] at hk; rw [hk] at h1; cases h1
    have hb : (k == k') = false := beq_eq_false_iff_ne.mpr hne
    simp only [List.lookup, hb]
    exact ih (fun q hq => he q (List.mem_cons_of_mem _ hq))

theorem filter_extra_self {e : List (String × FmValue)}
    (he : ∀ p ∈ e, reservedKeys.contains p.1 = false) :
    e.filter (fun p => !(reservedKeys.contains p.1)) = e := by
  induction e with
  | nil => rfl
  | cons p e ih =>
    have h1 : reservedKeys.contains p.1 = false := he p (List.mem_cons_self _ _)
    simp only [List.filter, h1, Bool.not_false]
    rw [ih (fun q hq => he q (List.mem_cons_of_mem _ hq))]

theorem fromPairs_toPairs (fm : DocumentFrontmatter) (h : FmOk fm) :
    fromPairs (toPairs fm) = some fm := by
  have hex : ∀ p ∈ fm.extra, reservedKeys.contains p.1 = false :=
    fun p hp => (h p hp).2
  obtain ⟨i, ti, ty, st, cr, up, ow, pr, tg, so, ex⟩ := fm
  simp only at hex
  have e1 := lookup_extra_none hex (show reservedKeys.contains "id" = true by decide)
  have e2 := lookup_extra_none hex (show reservedKeys.contains "title" = true by decide)
  have e3 := lookup_extra_none hex (show reservedKeys.contains "type" = true by decide)
  have e4 := lookup_extra_none hex (show reservedKeys.contains "status" = true by decide)
  have e5 := lookup_extra_none hex (show reservedKeys.contains "created" = true by decide)
  have e6 := lookup_extra_none hex (show reservedKeys.contains "updated" = true by decide)
  have e7 := lookup_extra_none hex (show reservedKeys.contains "owner" = true by decide)
  have e8 := lookup_extra_none hex (show reservedKeys.contains "priority" = true by decide)
  have e9 := lookup_extra_none hex (show reservedKeys.contains "tags" = true by decide)
  have e10 := lookup_extra_none hex (show reservedKeys.contains "source" = true by decide)
  have efil := filter_extra_self hex
  cases ow <;> cases pr <;> cases tg <;> cases so <;>
    (simp [fromPairs, toPairs, lookupStr, optStr, optList, lookup_append,
      List.lookup, e1, e2, e3, e4, e5, e6, e7, e8, e9, e10, efil, reservedKeys];
     intro a b hab;
     have hx := hex (a, b) hab;
     simpa [reservedKeys] using hx)

theorem keysOk_optStr {k0 : String} (hk0 : KeyOk k0 = true) (o : Option String)
    {k : String} {v : FmValue} (h : (k, v) ∈ optStr k0 o) : KeyOk k = true := by
  cases o with
  | none => simp [optStr] at h
  | some s =>
    simp only [optStr, List.mem_singleton, Prod.mk.injEq] at h
    rw [h.1]; exact hk0

theorem keysOk_optList {k0 : String} (hk0 : KeyOk k0 = true) (o : Option (List String))
    {k : String} {v : FmValue} (h : (k, v) ∈ optList k0 o) : KeyOk k = true := by
  cases o with
  | none => simp [optList] at h
  | some s =>
    simp only [optList, List.mem_singleton, Prod.mk.injEq] at h
    rw [h.1]; exact hk0

/-- Keys produced by `toPairs` are dump-safe. -/
theorem keysOk_toPairs (fm : DocumentFrontmatter) (h : FmOk fm) :
    KeysOk (toPairs fm) := by
  intro p hp
  obtain ⟨k, v⟩ := p
  show KeyOk k = true
  simp only [toPairs, List.append_assoc, List.mem_append, List.mem_cons,
    List.not_mem_nil, or_false, Prod.mk.injEq] at hp
  rcases hp with hp | hp
  · rcases hp with ⟨h1, _⟩ | ⟨h1, _⟩ | ⟨h1, _⟩ | ⟨h1, _⟩ | ⟨h1, _⟩ | ⟨h1, _⟩ <;>
      subst h1 <;> decide
  rcases hp with hp | hp
  · exact keysOk_optStr (by decide) fm.owner hp
  rcases hp with hp | hp
  · exact keysOk_optStr (by decide) fm.priority hp
  rcases hp with hp | hp
  · exact keysOk_optList (by decide) fm.tags hp
  rcases hp with hp | hp
  · exact keysOk_optStr (by decide) fm.source hp
  · exact (h (k, v) hp).1

/-- The `---` fence delimiting the metadata block. -/
def fenceChars : List Char := ['-', '-', '-']

/-- gray-matter `stringify`, modelled from the spec (§6): opening fence,
metadata block, closing fence, body. -/
def matterStringify (body : String) (fm : DocumentFrontmatter) : String :=
  String.mk (fenceChars ++ '\n' ::
    (((dumpPairs (toPairs fm)).map (fun l => l ++ ['\n'])).flatten ++
      (fenceChars ++ '\n' :: body.data)))

/-- `serializeDocument` from `src/storage/document.ts`: the body is the
content wrapped in blank lines (`content ? "\n"+content+"\n" : "\n"`). -/
def serializeDocument (doc : Document) : String :=
  matterStringify (if doc.content = "" then "\n" else "\n" ++ doc.content ++ "\n")
    doc.frontmatter

/-- `parseDocument` from `src/storage/document.ts`: split off the metadata
block, rebuild the frontmatter record, and `trim()` the content.  Raw text
without a well-formed metadata block is modelled as a parse failure
(gray-matter would yield an untyped empty frontmatter there; no caller in
the verified core depends on that case). -/
def parseDocument (raw : String) (filePath : String) : Option Document :=
  match raw.data with
  | '-' :: '-' :: '-' :: '\n' :: rest =>
    let lines := splitNl rest
    let fmLines := lines.takeWhile (fun l => decide (l ≠ fenceChars))
    match lines.dropWhile (fun l => decide (l ≠ fenceChars)) with
    | [] => none
    | _ :: bodyLines =>
      match parsePairs fmLines with
      | none => none
      | some ps =>
        match fromPairs ps with
        | none => none
        | some fm =>
          some { frontmatter := fm, content := jsTrim (String.mk (joinNl bodyLines)),
                 filePath := filePath }
  | _ => none

theorem dumpValue_line_ok {k : String} (hk : KeyOk k = true) (v : FmValue) :
    ∀ l ∈ dumpValue k v, ('\n' ∉ l) ∧ l ≠ fenceChars := by
  intro l hl
  cases v with
  | str s =>
    simp only [dumpValue, List.mem_singleton] at hl
    subst hl
    constructor
    · intro hmem
      rw [show k.data ++ ':' :: ' ' :: quoteStr s
        = k.data ++ ':' :: ' ' :: '"' :: (escChars s.data ++ ['"']) from rfl] at hmem
      simp only [List.mem_append, List.mem_cons, List.mem_singleton] at hmem
      rcases hmem with hmem | hmem | hmem | hmem | hmem | hmem
      · exact keyOk_no_colon hk (by exact absurd hmem (fun h => keyOk_no_nl hk h))
      · exact absurd hmem (by decide)
      · exact absurd hmem (by decide)
      · exact absurd hmem (by decide)
      · exact escChars_no_nl _ hmem
      · exact absurd hmem (by decide)
    · intro heq
      have hcol : ':' ∈ k.data ++ ':' :: ' ' :: quoteStr s := by
        exact List.mem_append.mpr (Or.inr (List.mem_cons_self _ _))
      rw [heq] at hcol
      simp [fenceChars] at hcol
  | list xs =>
    simp only [dumpValue, List.mem_cons] at hl
    rcases hl with hl | hl
    · subst hl
      constructor
      · intro hmem
        simp only [List.mem_append, List.mem_singleton] at hmem
        rcases hmem with hmem | hmem
        · exact keyOk_no_nl hk hmem
        · exact absurd hmem (by decide)
      · intro heq
        have hcol : ':' ∈ k.data ++ [':'] := by
          exact List.mem_append.mpr (Or.inr (List.mem_singleton.mpr rfl))
        rw [heq] at hcol
        simp [fenceChars] at hcol
    · simp only [List.mem_map] at hl
      obtain ⟨x, _, rfl⟩ := hl
      constructor
      · intro hmem
        rw [show (' ' :: ' ' :: '-' :: ' ' :: quoteStr x)
          = ' ' :: ' ' :: '-' :: ' ' :: '"' :: (escChars x.data ++ ['"']) from rfl] at hmem
        simp only [List.mem_cons, List.mem_append, List.mem_singleton] at hmem
        rcases hmem with hmem | hmem | hmem | hmem | hmem | hmem | hmem
        · exact absurd hmem (by decide)
        · exact absurd hmem (by decide)
        · exact absurd hmem (by decide)
        · exact absurd hmem (by decide)
        · exact absurd hmem (by decide)
        · exact escChars_no_nl _ hmem
        · exact absurd hmem (by decide)
      · intro heq
        simp [fenceChars] at heq

theorem dumpPairs_lines_ok {ps : List (String × FmValue)} (h : KeysOk ps) :
    ∀ l ∈ dumpPairs ps, ('\n' ∉ l) ∧ l ≠ fenceChars := by
  intro l hl
  simp only [dumpPairs, List.mem_flatten, List.mem_map] at hl
  obtain ⟨block, ⟨q, hq, rfl⟩, hmem⟩ := hl
  exact dumpValue_line_ok (h q hq) q.2 _ hmem

theorem takeWhile_all_append {α : Type} (p : α → Bool) {xs : List α}
    (h : ∀ x ∈ xs, p x = true) {f : α} (hf : p f = false) (t : List α) :
    (xs ++ f :: t).takeWhile p = xs ∧ (xs ++ f :: t).dropWhile p = f :: t := by
  induction xs with
  | nil => simp [List.takeWhile, List.dropWhile, hf]
  | cons x xs ih =>
    have hx : p x = true := h x (List.mem_cons_self _ _)
    have hxs := ih (fun y hy => h y (List.mem_cons_of_mem _ hy))
    simp only [List.cons_append, List.takeWhile, List.dropWhile, hx, List.append_eq]
    exact ⟨by rw [hxs.1], hxs.2⟩

theorem splitNl_block (lines : List (List Char))
    (h : ∀ l ∈ lines, '\n' ∉ l) (t : List Char) :
    splitNl ((lines.map (fun l => l ++ ['\n'])).flatten ++ t) = lines ++ splitNl t := by
  induction lines with
  | nil => simp
  | cons l ls ih =>
    have hl : '\n' ∉ l := h l (List.mem_cons_self _ _)
    have hls := ih (fun m hm => h m (List.mem_cons_of_mem _ hm))
    simp only [List.map_cons, List.flatten_cons, List.append_assoc]
    show splitNl (l ++ '\n' :: ((ls.map (fun l => l ++ ['\n'])).flatten ++ t))
      = l :: ls ++ splitNl t
    rw [splitNl_no_nl_append hl, hls]
    rfl

theorem trimChars_cons_nl (cs : List Char) : trimChars ('\n' :: cs) = trimChars cs := by
  unfold trimChars
  rw [show List.dropWhile isWsC ('\n' :: cs) = List.dropWhile isWsC cs from by
    simp [List.dropWhile, isWsC]]

theorem dropWhile_ws_append_nl (x : List Char) :
    List.dropWhile isWsC (x ++ ['\n']) =
      if List.dropWhile isWsC x = [] then [] else List.dropWhile isWsC x ++ ['\n'] := by
  induction x with
  | nil => simp [List.dropWhile, isWsC]
  | cons c cs ih =>
    by_cases hw : isWsC c = true
    · simp only [List.cons_append, List.dropWhile, hw, List.append_eq, ih]
    · have hw' : isWsC c = false := by
        cases hx : isWsC c
        · rfl
        · exact absurd hx hw
      simp [List.cons_append, List.dropWhile, hw']

theorem trimChars_append_nl (cs : List Char) :
    trimChars (cs ++ ['\n']) = trimChars cs := by
  unfold trimChars
  rw [dropWhile_ws_append_nl]
  by_cases he : List.dropWhile isWsC cs = []
  · rw [if_pos he, he]
  · rw [if_neg he, List.reverse_append]
    rw [show (['\n'] : List Char).reverse = ['\n'] from rfl]
    rw [show (['\n'] : List Char) ++ (List.dropWhile isWsC cs).reverse
      = '\n' :: (List.dropWhile isWsC cs).reverse from rfl]
    rw [show List.dropWhile isWsC ('\n' :: (List.dropWhile isWsC cs).reverse)
      = List.dropWhile isWsC ((List.dropWhile isWsC cs).reverse) from by
        simp [List.dropWhile, isWsC]]

/-- Content body after the round trip: wrapping in blank lines and then
trimming equals trimming the original content. -/
theorem jsTrim_wrap (c : String) :
    jsTrim (String.mk ('\n' :: (c.data ++ ['\n']))) = jsTrim c := by
  simp only [jsTrim]
  rw [show ('\n' :: (c.data ++ ['\n'])) = ('\n' :: c.data) ++ ['\n'] from rfl]
  rw [trimChars_append_nl, trimChars_cons_nl]

theorem string_eta (s : String) : String.mk s.data = s := rfl

/-- gray-matter `parse` on a fenced file, split out of `parseDocument` so
the fence match is a single reduction step. -/
def parseFenced (rest : List Char) (filePath : String) : Option Document :=
  let lines := splitNl rest
  let fmLines := lines.takeWhile (fun l => decide (l ≠ fenceChars))
  match lines.dropWhile (fun l => decide (l ≠ fenceChars)) with
  | [] => none
  | _ :: bodyLines =>
    match parsePairs fmLines with
    | none => none
    | some ps =>
      match fromPairs ps with
      | none => none
      | some fm =>
        some { frontmatter := fm, content := jsTrim (String.mk (joinNl bodyLines)),
               filePath := filePath }

theorem parseFenced_stringify (fm : DocumentFrontmatter) (h : FmOk fm)
    (body : String) (path : String) :
    parseFenced
      (((dumpPairs (toPairs fm)).map (fun l => l ++ ['\n'])).flatten ++
        (fenceChars ++ '\n' :: body.data)) path =
      some { frontmatter := fm, content := jsTrim body, filePath := path } := by
  have hkeys := keysOk_toPairs fm h
  have hlines := dumpPairs_lines_ok hkeys
  have hnl : ∀ l ∈ dumpPairs (toPairs fm), '\n' ∉ l := fun l hl => (hlines l hl).1
  have hfence : ∀ l ∈ dumpPairs (toPairs fm), (fun l => decide (l ≠ fenceChars)) l = true := by
    intro l hl
    simpa using (hlines l hl).2
  have hsplit : splitNl
      (((dumpPairs (toPairs fm)).map (fun l => l ++ ['\n'])).flatten ++
        (fenceChars ++ '\n' :: body.data)) =
      dumpPairs (toPairs fm) ++ (fenceChars :: splitNl body.data) := by
    rw [show fenceChars ++ '\n' :: body.data = fenceChars ++ '\n' :: body.data from rfl]
    rw [splitNl_block _ hnl]
    rw [splitNl_no_nl_append (by decide) body.data]
  have htw := takeWhile_all_append (fun l => decide (l ≠ fenceChars)) hfence
    (show (fun l => decide (l ≠ fenceChars)) fenceChars = false by decide) (splitNl body.data)
  simp only [parseFenced, hsplit, htw.1, htw.2]
  rw [parsePairs_dump _ hkeys]
  simp only [fromPairs_toPairs _ h, joinNl_splitNl, string_eta]

/-- `parseDocument` on any serialized output, fence step factored out. -/
theorem parseDocument_matterStringify (fm : DocumentFrontmatter) (h : FmOk fm)
    (body : String) (path : String) :
    parseDocument (matterStringify body fm) path =
      some { frontmatter := fm, content := jsTrim body, filePath := path } := by
  have hred : parseDocument (matterStringify body fm) path =
      parseFenced
        (((dumpPairs (toPairs fm)).map (fun l => l ++ ['\n'])).flatten ++
          (fenceChars ++ '\n' :: body.data)) path := rfl
  rw [hred, parseFenced_stringify fm h body path]

/-- C3: for every document D whose open frontmatter fields have
well-formed, non-shadowing keys, `parseDocument (serializeDocument D)`
reproduces D's frontmatter fields exactly and yields a content body equal
to D's content trimmed of leading and trailing whitespace. -/
theorem claim3_codec_roundtrip (doc : Document) (h : FmOk doc.frontmatter) :
    parseDocument (serializeDocument doc) doc.filePath =
      some { frontmatter := doc.frontmatter, content := jsTrim doc.content,
             filePath := doc.filePath } := by
  unfold serializeDocument
  rw [parseDocument_matterStringify doc.frontmatter h _ doc.filePath]
  by_cases hc : doc.content = ""
  · rw [if_pos hc, hc]
    rfl
  · rw [if_neg hc]
    have hb : ("\n" ++ doc.content ++ "\n") =
        String.mk ('\n' :: (doc.content.data ++ ['\n'])) := by
      cases hx : doc.content with
      | mk d => rfl
    rw [hb, jsTrim_wrap]

/-- A concrete document exercising `claim3_codec_roundtrip`. -/
def demoDoc : Document :=
  { frontmatter :=
      { id := "D-001", title := "Use REST", type := "decision", status := "open",
        created := "2026-01-01T00:00:00.000Z", updated := "2026-01-01T00:00:00.000Z",
        tags := some ["api", "arch"],
        extra := [("context", FmValue.str "Greenfield build")] },
    content := "We chose REST.\n",
    filePath := "docs/decisions/D-001.md" }

theorem claim3_codec_roundtrip_witness :
    FmOk demoDoc.frontmatter ∧
      parseDocument (serializeDocument demoDoc) demoDoc.filePath =
        some { frontmatter := demoDoc.frontmatter, content := jsTrim demoDoc.content,
               filePath := demoDoc.filePath } :=
  ⟨by unfold FmOk; decide, claim3_codec_roundtrip demoDoc (by unfold FmOk; decide)⟩

/-! ## Cross-reference rewriter (`src/import/resolver.ts`)

`updateCrossReferences` is `content.replace(ID_REF_PATTERN, m => map.get(m) ?? m)`
with `ID_REF_PATTERN = /\b([A-Z]+-\d{3,})\b/g`.  The scan below mirrors the
JS regex engine on this pattern: at each position, provided the preceding
character is not a word character, it takes the maximal uppercase run, a
hyphen, and the maximal digit run (≥ 3), and requires the following
character to be a non-word character or the end.  Backtracking cannot
produce any other match for this pattern: shortening the digit run places a
digit after the match (no word boundary), and shortening the uppercase run
places an uppercase letter where the hyphen is required.  On failure the
engine advances one character. -/

/-- A `\b` boundary against the given neighbouring character (absent at the
ends of the string). -/
def boundaryOkP : Option Char → Bool
  | none => true
  | some c => !isWordChar c

/-- One match attempt of `ID_REF_PATTERN` at the current position,
after the left word-boundary has been checked. -/
def tryMatchCore (cs : List Char) : Option (List Char × List Char) :=
  let u := cs.takeWhile isUpperC
  match cs.dropWhile isUpperC with
  | '-' :: r2 =>
    let d := r2.takeWhile isDigitC
    let r3 := r2.dropWhile isDigitC
    if !u.isEmpty && 3 ≤ d.length && boundaryOkP r3.head? then some (u ++ '-' :: d, r3)
    else none
  | _ => none

/-- One match attempt of `ID_REF_PATTERN` at the current position;
returns the matched id and the remainder. -/
def tryMatch (prev : Option Char) (cs : List Char) : Option (List Char × List Char) :=
  if boundaryOkP prev then tryMatchCore cs else none

/-- A segment of the scanned body: a verbatim character or a matched id. -/
inductive Seg where
  | lit : Char → Seg
  | found : List Char → Seg
deriving DecidableEq, Repr

/-- The global scan (`/g`): after a match the engine continues after the
matched text; its last character (a digit) is the new left context.
Fuelled for structural recursion; each step consumes at least one
character, so fuel `cs.length` is always sufficient. -/
def segsF : Nat → Option Char → List Char → List Seg
  | 0, _, cs => cs.map Seg.lit
  | fuel + 1, prev, cs =>
    match tryMatch prev cs with
    | some (m, r) => Seg.found m :: segsF fuel (some (m.getLastD ' ')) r
    | none =>
      match cs with
      | [] => []
      | c :: rest => Seg.lit c :: segsF fuel (some c) rest

/-- The segments of a body, scanned from the start of the string. -/
def segsOf (cs : List Char) : List Seg := segsF cs.length none cs

/-- The raw text of a segment. -/
def unseg : Seg → List Char
  | .lit c => [c]
  | .found m => m

/-- Render one segment through the replacement map (`map.get(m) ?? m`). -/
def renderSeg (lookupFn : String → Option String) : Seg → List Char
  | .lit c => [c]
  | .found m =>
    match lookupFn (String.mk m) with
    | some rep => rep.data
    | none => m

/-- Set a key in an ordered association map, in place when present,
appended otherwise — the update discipline shared by JS `Map.set`,
object-property assignment and `fs.writeFileSync`. -/
def assocSet {κ α : Type} [BEq κ] (l : List (κ × α)) (k : κ) (v : α) : List (κ × α) :=
  if l.any (fun e => e.1 == k) then l.map (fun e => if e.1 == k then (k, v) else e)
  else l ++ [(k, v)]

/-- JS `Map.prototype.get`. -/
def mapGet (m : List (String × String)) (k : String) : Option String := m.lookup k

/-- JS `Map.prototype.set`. -/
def mapSet (m : List (String × String)) (k v : String) : List (String × String) :=
  assocSet m k v

/-- `updateCrossReferences` from `src/import/resolver.ts`. -/
def updateCrossReferences (content : String) (idMapping : List (String × String)) :
    String :=
  if idMapping.length = 0 then content
  else String.mk (((segsOf content.data).map (renderSeg (mapGet idMapping))).flatten)

/-- The full-match shape of `ID_REF_PATTERN`: uppercase run, hyphen, at
least three digits, nothing else. -/
def idShaped (m : List Char) : Bool :=
  let u := m.takeWhile isUpperC
  match m.dropWhile isUpperC with
  | '-' :: d => !u.isEmpty && 3 ≤ d.length && d.all isDigitC
  | _ => false

theorem tryMatchCore_some {cs m r : List Char}
    (h : tryMatchCore cs = some (m, r)) :
    cs = m ++ r ∧ idShaped m = true ∧ m ≠ [] ∧ boundaryOkP r.head? = true := by
  simp only [tryMatchCore] at h
  split at h
  case h_2 => exact absurd h (by simp)
  case h_1 r2 heq =>
    split at h
    case isFalse => exact absurd h (by simp)
    case isTrue hcond =>
      rw [Bool.and_eq_true, Bool.and_eq_true] at hcond
      obtain ⟨⟨hu, hdl⟩, hb3⟩ := hcond
      injection h with hpair
      injection hpair with hm hr
      subst hm
      subst hr
      have hr2 : r2.takeWhile isDigitC ++ r2.dropWhile isDigitC = r2 :=
        List.takeWhile_append_dropWhile isDigitC r2
      have hcsplit : cs.takeWhile isUpperC ++ cs.dropWhile isUpperC = cs :=
        List.takeWhile_append_dropWhile isUpperC cs
      have hup : ∀ x ∈ cs.takeWhile isUpperC, isUpperC x = true :=
        fun x hx => List.mem_takeWhile_imp hx
      have hfsplit := takeWhile_all_append isUpperC hup
        (show isUpperC '-' = false by decide) (r2.takeWhile isDigitC)
      refine ⟨?_, ?_, by simp, hb3⟩
      · have hassoc : (cs.takeWhile isUpperC ++ '-' :: r2.takeWhile isDigitC) ++
            r2.dropWhile isDigitC = cs.takeWhile isUpperC ++ '-' :: r2 := by
          rw [List.append_assoc, List.cons_append, hr2]
        rw [hassoc, ← heq, hcsplit]
      · simp only [idShaped, hfsplit.1, hfsplit.2]
        rw [Bool.and_eq_true, Bool.and_eq_true]
        refine ⟨⟨hu, hdl⟩, ?_⟩
        exact List.all_eq_true.mpr (fun x hx => List.mem_takeWhile_imp hx)

theorem tryMatch_some {prev : Option Char} {cs m r : List Char}
    (h : tryMatch prev cs = some (m, r)) :
    cs = m ++ r ∧ idShaped m = true ∧ m ≠ [] ∧
      boundaryOkP prev = true ∧ boundaryOkP r.head? = true := by
  unfold tryMatch at h
  split at h
  case isTrue hb =>
    obtain ⟨ha, hb2, hc, hd⟩ := tryMatchCore_some h
    exact ⟨ha, hb2, hc, by assumption, hd⟩
  case isFalse => exact absurd h (by simp)

theorem lit_flatten (cs : List Char) : ((cs.map Seg.lit).map unseg).flatten = cs := by
  induction cs with
  | nil => rfl
  | cons c rest ih => simp only [List.map_cons, List.flatten_cons, unseg]; rw [ih]; rfl

/-- The scan is lossless: re-concatenating the segments gives the input back. -/
theorem segsF_flatten (fuel : Nat) (prev : Option Char) (cs : List Char) :
    ((segsF fuel prev cs).map unseg).flatten = cs := by
  induction fuel generalizing prev cs with
  | zero => exact lit_flatten cs
  | succ f ih =>
    cases hm : tryMatch prev cs with
    | some mr =>
      obtain ⟨m, r⟩ := mr
      obtain ⟨hcs, _, _, _, _⟩ := tryMatch_some hm
      simp only [segsF, hm, List.map_cons, List.flatten_cons, unseg, ih]
      exact hcs.symm
    | none =>
      cases cs with
      | nil => simp [segsF, hm]
      | cons c rest =>
        simp only [segsF, hm, List.map_cons, List.flatten_cons, unseg, ih]
        rfl

theorem segsOf_flatten (cs : List Char) : ((segsOf cs).map unseg).flatten = cs :=
  segsF_flatten cs.length none cs

/-- First character contributed by a list of segments. -/
def flattenHead (segs : List Seg) : Option Char := ((segs.map unseg).flatten).head?

/-- Every matched segment sits between word boundaries: the character to
its left (tracked by the scan) and the first character to its right are
non-word characters or absent. -/
def segBoundariesOk : Option Char → List Seg → Bool
  | _, [] => true
  | _, Seg.lit c :: rest => segBoundariesOk (some c) rest
  | prev, Seg.found m :: rest =>
    boundaryOkP prev && boundaryOkP (flattenHead rest) &&
      segBoundariesOk (some (m.getLastD ' ')) rest

theorem lit_boundaries (cs : List Char) (prev : Option Char) :
    segBoundariesOk prev (cs.map Seg.lit) = true := by
  induction cs generalizing prev with
  | nil => rfl
  | cons c rest ih => simp only [List.map_cons, segBoundariesOk]; exact ih _

theorem segsF_boundaries (fuel : Nat) (prev : Option Char) (cs : List Char) :
    segBoundariesOk prev (segsF fuel prev cs) = true := by
  induction fuel generalizing prev cs with
  | zero => exact lit_boundaries cs prev
  | succ f ih =>
    cases hm : tryMatch prev cs with
    | some mr =>
      obtain ⟨m, r⟩ := mr
      obtain ⟨hcs, hsh, hne, hbp, hbn⟩ := tryMatch_some hm
      simp only [segsF, hm, segBoundariesOk, flattenHead, segsF_flatten, hbp, hbn,
        Bool.true_and, Bool.and_eq_true]
      exact ih _ _
    | none =>
      cases cs with
      | nil => simp [segsF, hm, segBoundariesOk]
      | cons c rest =>
        simp only [segsF, hm, segBoundariesOk]
        exact ih _ _

/-- Every matched segment is an id-shaped string. -/
theorem segsF_found_idShaped (fuel : Nat) (prev : Option Char) (cs : List Char)
    {m : List Char} (h : Seg.found m ∈ segsF fuel prev cs) : idShaped m = true := by
  induction fuel generalizing prev cs with
  | zero =>
    exfalso
    simp only [segsF, List.mem_map] at h
    obtain ⟨c, _, hc⟩ := h
    cases hc
  | succ f ih =>
    cases hm : tryMatch prev cs with
    | some mr =>
      obtain ⟨mm, r⟩ := mr
      rw [show segsF (f + 1) prev cs = Seg.found mm :: segsF f (some (mm.getLastD ' ')) r
        from by simp [segsF, hm]] at h
      rcases List.mem_cons.mp h with h | h
      · injection h with hmm
        rw [hmm]
        exact (tryMatch_some hm).2.1
      · exact ih _ _ h
    | none =>
      cases cs with
      | nil =>
        rw [show segsF (f + 1) prev [] = [] from by simp [segsF, hm]] at h
        cases h
      | cons c rest =>
        rw [show segsF (f + 1) prev (c :: rest) = Seg.lit c :: segsF f (some c) rest
          from by simp [segsF, hm]] at h
        rcases List.mem_cons.mp h with h | h
        · cases h
        · exact ih _ _ h

/-- A body with no id-shaped substring scans to all-literal segments. -/
theorem segsF_no_idShaped (fuel : Nat) (prev : Option Char) (cs : List Char)
    (h : ∀ pre m post : List Char, cs = pre ++ m ++ post → idShaped m = false) :
    segsF fuel prev cs = cs.map Seg.lit := by
  induction fuel generalizing prev cs with
  | zero => rfl
  | succ f ih =>
    cases hm : tryMatch prev cs with
    | some mr =>
      obtain ⟨m, r⟩ := mr
      obtain ⟨hcs, hsh, _, _, _⟩ := tryMatch_some hm
      have hfalse := h [] m r (by simpa using hcs)
      rw [hfalse] at hsh
      cases hsh
    | none =>
      cases cs with
      | nil => simp [segsF, hm]
      | cons c rest =>
        simp only [segsF, hm, List.map_cons]
        rw [ih (some c) rest ?_]
        intro pre m post hd
        exact h (c :: pre) m post (by rw [hd]; rfl)

theorem render_unseg_of_none (f : String → Option String) (segs : List Seg)
    (h : ∀ m, Seg.found m ∈ segs → f (String.mk m) = none) :
    (segs.map (renderSeg f)).flatten = (segs.map unseg).flatten := by
  induction segs with
  | nil => rfl
  | cons sg rest ih =>
    cases sg with
    | lit c =>
      simp only [List.map_cons, List.flatten_cons, renderSeg, unseg]
      rw [ih (fun m hm => h m (List.mem_cons_of_mem _ hm))]
    | found m =>
      have habs := h m (List.mem_cons_self _ _)
      simp only [List.map_cons, List.flatten_cons, renderSeg, unseg, habs]
      rw [ih (fun m hm => h m (List.mem_cons_of_mem _ hm))]

theorem render_lit_flatten (f : String → Option String) (cs : List Char) :
    ((cs.map Seg.lit).map (renderSeg f)).flatten = cs := by
  induction cs with
  | nil => rfl
  | cons c rest ih =>
    simp only [List.map_cons, List.flatten_cons, renderSeg]
    rw [ih]
    rfl

/-- `updateCrossReferences` always equals rendering the scanned segments
(the size-zero early return included, since an empty map replaces
nothing). -/
theorem updateCrossReferences_render (content : String)
    (mapping : List (String × String)) :
    updateCrossReferences content mapping =
      String.mk (((segsOf content.data).map (renderSeg (mapGet mapping))).flatten) := by
  unfold updateCrossReferences
  by_cases h : mapping.length = 0
  · rw [if_pos h]
    have hm : mapping = [] := List.length_eq_zero.mp h
    subst hm
    rw [render_unseg_of_none _ _ (fun m _ => rfl), segsOf_flatten]
  · rw [if_neg h]

/-- Bridge: a computable check for the absence of id-shaped substrings. -/
def containsIdShaped (cs : List Char) : Bool :=
  cs.tails.any (fun t => t.inits.any idShaped)

theorem no_decomp_of_containsIdShaped_false {cs : List Char}
    (h : containsIdShaped cs = false) :
    ∀ pre m post : List Char, cs = pre ++ m ++ post → idShaped m = false := by
  intro pre m post hd
  cases hsh : idShaped m with
  | false => rfl
  | true =>
    exfalso
    have hmem : containsIdShaped cs = true := by
      unfold containsIdShaped
      rw [List.any_eq_true]
      refine ⟨m ++ post, ?_, ?_⟩
      · rw [List.mem_tails]
        exact ⟨pre, by rw [hd, List.append_assoc]⟩
      · rw [List.any_eq_true]
        exact ⟨m, by rw [List.mem_inits]; exact ⟨post, rfl⟩, hsh⟩
    rw [h] at hmem
    cases hmem

/-- Bridge: a computable check that every matched id is absent from the
mapping. -/
def allFoundAbsent (cs : List Char) (mapping : List (String × String)) : Bool :=
  (segsOf cs).all (fun sg =>
    match sg with
    | Seg.found m => (mapGet mapping (String.mk m)).isNone
    | Seg.lit _ => true)

theorem absent_of_allFoundAbsent {cs : List Char} {mapping : List (String × String)}
    (h : allFoundAbsent cs mapping = true) :
    ∀ m, Seg.found m ∈ segsOf cs → mapGet mapping (String.mk m) = none := by
  intro m hm
  have := List.all_eq_true.mp h _ hm
  simpa [Option.isNone_iff_eq_none] using this

/-- C6: the cross-reference rewrite example from the spec, and the general
no-op guarantees: given mapping {D-001 → D-010, A-003 → A-020} the example
body is rewritten as specified; an empty mapping returns the body
unchanged; a body with no id-shaped substring is returned unchanged; and a
body in which every matched id is absent from the mapping is returned
unchanged (absent ids are emitted verbatim). -/
theorem claim6_crossref_rewrite :
    updateCrossReferences "See D-001 for context. Related action: A-003."
        [("D-001", "D-010"), ("A-003", "A-020")] =
      "See D-010 for context. Related action: A-020." ∧
    (∀ content : String, updateCrossReferences content [] = content) ∧
    (∀ (content : String) (mapping : List (String × String)),
      (∀ pre m post : List Char, content.data = pre ++ m ++ post → idShaped m = false) →
      updateCrossReferences content mapping = content) ∧
    (∀ (content : String) (mapping : List (String × String)),
      (∀ m, Seg.found m ∈ segsOf content.data → mapGet mapping (String.mk m) = none) →
      updateCrossReferences content mapping = content) := by
  refine ⟨by decide, ?_, ?_, ?_⟩
  · intro content
    simp [updateCrossReferences]
  · intro content mapping h
    rw [updateCrossReferences_render]
    unfold segsOf
    rw [segsF_no_idShaped _ _ _ h, render_lit_flatten]
  · intro content mapping h
    rw [updateCrossReferences_render, render_unseg_of_none _ _ h, segsOf_flatten]

theorem claim6_crossref_rewrite_witness :
    updateCrossReferences "No identifiers here at all." [("D-001", "D-010")] =
        "No identifiers here at all." ∧
      updateCrossReferences "See D-042 please." [("D-001", "D-010")] =
        "See D-042 please." :=
  ⟨claim6_crossref_rewrite.2.2.1 "No identifiers here at all." [("D-001", "D-010")]
      (no_decomp_of_containsIdShaped_false (by decide)),
    claim6_crossref_rewrite.2.2.2 "See D-042 please." [("D-001", "D-010")]
      (absent_of_allFoundAbsent (by decide))⟩

/-- C10: `updateCrossReferences` replaces only identifier occurrences
delimited by word boundaries.  The rewrite equals rendering the scanned
segments; every matched segment is id-shaped and sits between word
boundaries (left context and following character non-word or absent);
and at concrete bodies, an id-shaped substring preceded or followed by a
word character is left unchanged even though that id is in the mapping. -/
theorem claim10_word_boundary_only :
    (∀ (content : String) (mapping : List (String × String)),
      updateCrossReferences content mapping =
        String.mk (((segsOf content.data).map (renderSeg (mapGet mapping))).flatten)) ∧
    (∀ content : String, segBoundariesOk none (segsOf content.data) = true) ∧
    (∀ (content : String) (m : List Char),
      Seg.found m ∈ segsOf content.data → idShaped m = true) ∧
    updateCrossReferences "XD-001x" [("D-001", "D-010")] = "XD-001x" ∧
    updateCrossReferences "aD-001" [("D-001", "D-010")] = "aD-001" ∧
    updateCrossReferences "_D-001" [("D-001", "D-010")] = "_D-001" ∧
    updateCrossReferences "D-0010" [("D-001", "D-010")] = "D-0010" := by
  refine ⟨updateCrossReferences_render, fun content => segsF_boundaries _ _ _,
    fun content m hm => segsF_found_idShaped _ _ _ hm, by decide, by decide,
    by decide, by decide⟩

theorem claim10_word_boundary_only_witness :
    idShaped "D-001".data = true :=
  claim10_word_boundary_only.2.2.1 "See D-001." "D-001".data (by decide)

/-! ## Document store (`src/storage/store.ts`)

Filesystem state is explicit: the store is a finite map from
(directory name, file name) to the parsed document file.  `readdirSync`
enumerates the entries of one directory in insertion (creation) order;
`writeFileSync` overwrites in place or appends.  The clock is an argument
to the mutating operations.  A thrown `Error` is modelled as an `.error`
result paired with the unchanged state (the source throws before any
write). -/

/-- `DocumentTypeRegistration` from `src/storage/types.ts`. -/
structure DocumentTypeRegistration where
  type : String
  dirName : String
  idPrefix : String
deriving DecidableEq, Repr

def CORE_TYPE_DIRS : List (String × String) :=
  [("decision", "decisions"), ("action", "actions"), ("question", "questions")]

def CORE_ID_PREFIXES : List (String × String) :=
  [("decision", "D"), ("action", "A"), ("question", "Q")]

/-- The type universe of one store instance: type → directory and
type → id prefix, built in the constructor. -/
structure StoreConfig where
  typeDirs : List (String × String)
  idPrefixes : List (String × String)
deriving DecidableEq, Repr

/-- The constructor's registration loop: later registrations override. -/
def mkConfig (regs : List DocumentTypeRegistration) : StoreConfig :=
  { typeDirs := regs.foldl (fun acc r => mapSet acc r.type r.dirName) CORE_TYPE_DIRS,
    idPrefixes := regs.foldl (fun acc r => mapSet acc r.type r.idPrefix) CORE_ID_PREFIXES }

/-- `COMMON_REGISTRATIONS` from `src/plugins/common.ts`. -/
def COMMON_REGISTRATIONS : List DocumentTypeRegistration :=
  [⟨"meeting", "meetings", "M"⟩, ⟨"report", "reports", "R"⟩,
   ⟨"feature", "features", "F"⟩, ⟨"epic", "epics", "E"⟩]

def commonConfig : StoreConfig := mkConfig COMMON_REGISTRATIONS

/-- One on-disk document file, already parsed. -/
structure DocFile where
  fm : DocumentFrontmatter
  content : String
deriving DecidableEq, Repr

/-- The docs tree: (directory, file name) → file, plus the in-memory
metadata index. -/
structure StoreState where
  files : List ((String × String) × DocFile)
  index : List (String × DocumentFrontmatter)
deriving DecidableEq, Repr

def emptyStore : StoreState := ⟨[], []⟩

/-- `fs.writeFileSync`: overwrite the file at this path or create it. -/
def writeFile (files : List ((String × String) × DocFile)) (dir fname : String)
    (df : DocFile) : List ((String × String) × DocFile) :=
  assocSet files (dir, fname) df

/-- `this.index.set(id, fm)`. -/
def indexSet (idx : List (String × DocumentFrontmatter)) (k : String)
    (fm : DocumentFrontmatter) : List (String × DocumentFrontmatter) :=
  assocSet idx k fm

/-- `.md` filename filter (`f.endsWith(".md")`). -/
def endsWithMd (fname : String) : Bool :=
  match fname.data.reverse with
  | 'd' :: 'm' :: '.' :: _ => true
  | _ => false

/-- `readdirSync(dir).filter(f => f.endsWith(".md"))` with parsed files. -/
def dirFilesMd (s : StoreState) (dir : String) : List (String × DocFile) :=
  (s.files.filter (fun e => e.1.1 == dir && endsWithMd e.1.2)).map
    (fun e => (e.1.2, e.2))

/-- `DocumentStore.get`: linear scan of all registered-type directories for
a document with this id.  (The source parses each file, which trims the
content; the claims below depend only on frontmatter and existence.) -/
def getDoc (c : StoreConfig) (s : StoreState) (id : String) : Option DocFile :=
  (((c.typeDirs.map (fun td => dirFilesMd s td.2)).flatten).map Prod.snd).find?
    (fun df => df.fm.id == id)

/-- The filename pattern `^<pfx>-(\d+)\.md$`, returning the parsed number. -/
def matchIdFile (pfx fname : String) : Option Nat :=
  match dropPrefixQ (pfx.data ++ ['-']) fname.data with
  | none => none
  | some rest =>
    let ds := rest.takeWhile isDigitC
    let tail := rest.dropWhile isDigitC
    if !ds.isEmpty && tail = ['.', 'm', 'd'] then some (digitsVal ds) else none

/-- The id pattern `^<pfx>-<digits>$`, returning the parsed number. -/
def idMatch (pfx id : String) : Option Nat :=
  match dropPrefixQ (pfx.data ++ ['-']) id.data with
  | none => none
  | some rest =>
    if !rest.isEmpty && rest.all isDigitC then some (digitsVal rest) else none

/-- The maximum numeric suffix among this directory's pattern-matching
files (`maxNum` in `DocumentStore.nextId`). -/
def maxIdNum (s : StoreState) (dir pfx : String) : Nat :=
  ((dirFilesMd s dir).filterMap (fun nf => matchIdFile pfx nf.1)).foldl max 0

/-- `DocumentStore.nextId`. -/
def nextId (c : StoreConfig) (s : StoreState) (t : String) : Except String String :=
  match c.idPrefixes.lookup t with
  | none => .error ("Unknown document type: " ++ t)
  | some pfx =>
    match c.typeDirs.lookup t with
    | none => .error ("Unknown document type: " ++ t)
    | some dir => .ok (pfx ++ "-" ++ pad3 (maxIdNum s dir pfx + 1))

/-- A character kept verbatim by `slugify` (lowercase letter or digit). -/
def isSlugAl (c : Char) : Bool := ('a' ≤ c && c ≤ 'z') || ('0' ≤ c && c ≤ '9')

/-- `text.replace(/[^a-z0-9]+/g, "-")`: each maximal run of other
characters becomes one hyphen (fuelled; each step consumes ≥ 1). -/
def collapseF : Nat → List Char → List Char
  | 0, _ => []
  | _ + 1, [] => []
  | fuel + 1, c :: rest =>
    if isSlugAl c then c :: collapseF fuel rest
    else '-' :: collapseF fuel (rest.dropWhile (fun d => !isSlugAl d))

/-- `slugify` from `src/storage/store.ts`. -/
def slugify (text : String) : String :=
  let lowered := text.data.map Char.toLower
  let collapsed := collapseF lowered.length lowered
  String.mk (((collapsed.dropWhile (fun c => c = '-')).reverse.dropWhile
    (fun c => c = '-')).reverse)

/-- `Partial<DocumentFrontmatter>` restricted to the modelled fields;
absent fields are `undefined` and are stripped before the spread. -/
structure PartialFrontmatter where
  id : Option String := none
  title : Option String := none
  type : Option String := none
  status : Option String := none
  created : Option String := none
  updated : Option String := none
  owner : Option String := none
  priority : Option String := none
  tags : Option (List String) := none
  source : Option String := none
  extra : List (String × FmValue) := []
deriving DecidableEq, Repr

/-- `{ id, title: "Untitled", type, status: "open", created: now,
updated: now, ...cleaned }`: caller-supplied defined fields override the
defaults — including `id`, which shadows the allocated identifier. -/
def mergeFrontmatter (allocatedId t now : String) (p : PartialFrontmatter) :
    DocumentFrontmatter :=
  { id := p.id.getD allocatedId,
    title := p.title.getD "Untitled",
    type := p.type.getD t,
    status := p.status.getD "open",
    created := p.created.getD now,
    updated := p.updated.getD now,
    owner := p.owner, priority := p.priority, tags := p.tags, source := p.source,
    extra := p.extra }

/-- `DocumentStore.create`.  The filename is date-slug for the legacy
`meeting` type and `<id>.md` otherwise; the index records the *allocated*
id. -/
def create (c : StoreConfig) (s : StoreState) (t : String) (p : PartialFrontmatter)
    (content now : String) : StoreState × Except String DocFile :=
  match nextId c s t with
  | .error e => (s, .error e)
  | .ok id =>
    match c.typeDirs.lookup t with
    | none => (s, .error ("Unknown document type: " ++ t))
    | some dir =>
      let fm := mergeFrontmatter id t now p
      let fileName := if t = "meeting"
        then String.mk (now.data.take 10) ++ "-" ++ slugify fm.title ++ ".md"
        else id ++ ".md"
      let df : DocFile := ⟨fm, content⟩
      ({ files := writeFile s.files dir fileName df,
         index := indexSet s.index id fm }, .ok df)

/-- `DocumentStore.importDocument`: fails when a document with this id
already exists anywhere; both failure paths throw before any write. -/
def importDocument (c : StoreConfig) (s : StoreState) (t : String)
    (fm : DocumentFrontmatter) (content : String) : StoreState × Except String DocFile :=
  match c.typeDirs.lookup t with
  | none => (s, .error ("Unknown document type: " ++ t))
  | some dir =>
    match getDoc c s fm.id with
    | some _ => (s, .error ("Document " ++ fm.id ++
        " already exists. Resolve conflicts before importing."))
    | none =>
      let fileName := if t = "meeting"
        then String.mk (fm.created.data.take 10) ++ "-" ++ slugify fm.title ++ ".md"
        else fm.id ++ ".md"
      let df : DocFile := ⟨fm, content⟩
      ({ files := writeFile s.files dir fileName df,
         index := indexSet s.index fm.id fm }, .ok df)

/-- One store mutation, as issued by a caller. -/
inductive StoreCall where
  | mkDoc (t : String) (p : PartialFrontmatter) (content : String) (now : String)
  | impDoc (t : String) (fm : DocumentFrontmatter) (content : String)
deriving Repr

def execCall (c : StoreConfig) (s : StoreState) : StoreCall →
    StoreState × Except String DocFile
  | .mkDoc t p content now => create c s t p content now
  | .impDoc t fm content => importDocument c s t fm content

/-- Run a sequence of calls; `none` as soon as one fails. -/
def runCalls (c : StoreConfig) (s : StoreState) : List StoreCall → Option StoreState
  | [] => some s
  | call :: rest =>
    match execCall c s call with
    | (s', .ok _) => runCalls c s' rest
    | (_, .error _) => none

/-- The ids of all documents on disk, in file order. -/
def storeIds (s : StoreState) : List String := s.files.map (fun e => e.2.fm.id)

/-! ## Conflict resolver (`src/import/resolver.ts`) -/

/-- `ConflictStrategy` from `src/import/types.ts`. -/
inductive ConflictStrategy where
  | renumber
  | skip
  | overwrite
deriving DecidableEq, Repr

/-- `ResolvedDocument` from `src/import/resolver.ts`. -/
structure ResolvedDocument where
  fm : DocumentFrontmatter
  content : String
  originalId : String
  newId : String
deriving DecidableEq, Repr

/-- `ResolveResult` from `src/import/resolver.ts`; the `Map` is an ordered
association list with `mapSet`/`mapGet` mirroring JS `Map`. -/
structure ResolveResult where
  resolved : List ResolvedDocument
  skipped : List String
  idMapping : List (String × String)
deriving DecidableEq, Repr

/-- One iteration of the `for (const doc of incoming)` loop. -/
def resolveStep (c : StoreConfig) (s : StoreState) (strategy : ConflictStrategy)
    (acc : ResolveResult) (doc : DocumentFrontmatter × String) :
    Except String ResolveResult :=
  let originalId := doc.1.id
  match getDoc c s originalId with
  | none =>
    .ok { resolved := acc.resolved ++ [⟨doc.1, doc.2, originalId, originalId⟩],
          skipped := acc.skipped,
          idMapping := mapSet acc.idMapping originalId originalId }
  | some _ =>
    match strategy with
    | .skip => .ok { acc with skipped := acc.skipped ++ [originalId] }
    | .overwrite =>
      .ok { resolved := acc.resolved ++ [⟨doc.1, doc.2, originalId, originalId⟩],
            skipped := acc.skipped,
            idMapping := mapSet acc.idMapping originalId originalId }
    | .renumber =>
      match nextId c s doc.1.type with
      | .error e => .error e
      | .ok newId =>
        .ok { resolved := acc.resolved ++
                [⟨{ doc.1 with id := newId }, doc.2, originalId, newId⟩],
              skipped := acc.skipped,
              idMapping := mapSet acc.idMapping originalId newId }

def resolveGo (c : StoreConfig) (s : StoreState) (strategy : ConflictStrategy) :
    ResolveResult → List (DocumentFrontmatter × String) → Except String ResolveResult
  | acc, [] => .ok acc
  | acc, doc :: rest =>
    match resolveStep c s strategy acc doc with
    | .error e => .error e
    | .ok acc' => resolveGo c s strategy acc' rest

/-- `resolveConflicts` from `src/import/resolver.ts`.  A `nextId` failure
(unknown document type) propagates. -/
def resolveConflicts (incoming : List (DocumentFrontmatter × String))
    (c : StoreConfig) (s : StoreState) (strategy : ConflictStrategy) :
    Except String ResolveResult :=
  resolveGo c s strategy ⟨[], [], []⟩ incoming

/-- A store holding one decision `D-001`, built through `create` as in
the resolver tests. -/
def demoStore : StoreState :=
  (create commonConfig emptyStore "decision" { title := some "Existing" } "Old."
    "2026-01-01T00:00:00.000Z").1

/-- An incoming document also claiming `D-001`. -/
def demoIncomingFm : DocumentFrontmatter :=
  { id := "D-001", title := "Incoming", type := "decision", status := "open",
    created := "2026-02-01T00:00:00.000Z", updated := "2026-02-01T00:00:00.000Z" }

/-- The existing document stored in `demoStore`. -/
def demoExistingFile : DocFile :=
  ⟨{ id := "D-001", title := "Existing", type := "decision", status := "open",
     created := "2026-01-01T00:00:00.000Z",
     updated := "2026-01-01T00:00:00.000Z" }, "Old."⟩

/-! ### Association-map lemmas -/

theorem bool_eq_false {b : Bool} (h : ¬b = true) : b = false := by
  cases b
  · rfl
  · exact absurd rfl h

theorem lookup_of_any_false {κ α : Type} [BEq κ] [LawfulBEq κ]
    {l : List (κ × α)} {k : κ} (h : l.any (fun e => e.1 == k) = false) :
    l.lookup k = none := by
  induction l with
  | nil => rfl
  | cons e rest ih =>
    simp only [List.any_cons, Bool.or_eq_false_iff] at h
    have hk : (k == e.1) = false := by
      cases hx : (k == e.1)
      · rfl
      · rw [eq_of_beq hx, beq_self_eq_true] at h
        simpa using h.1
    simp only [List.lookup, hk]
    exact ih h.2

theorem lookup_mapReplace {κ α : Type} [BEq κ] [LawfulBEq κ]
    (l : List (κ × α)) (k : κ) (v : α) :
    (l.map (fun e => if e.1 == k then (k, v) else e)).lookup k =
      if l.any (fun e => e.1 == k) then some v else none := by
  induction l with
  | nil => simp [List.lookup]
  | cons e rest ih =>
    by_cases he : (e.1 == k) = true
    · rw [List.map_cons, if_pos he]
      simp [List.lookup, List.any_cons, he]
    · have he' : (e.1 == k) = false := bool_eq_false he
      rw [List.map_cons, if_neg he]
      have hk : (k == e.1) = false := by
        cases hx : (k == e.1)
        · rfl
        · rw [eq_of_beq hx, beq_self_eq_true] at he'
          cases he'
      simp only [List.lookup, hk, List.any_cons, he', ih, Bool.false_or]

theorem lookup_mapReplace_other {κ α : Type} [BEq κ] [LawfulBEq κ]
    (l : List (κ × α)) {k k' : κ} (v : α) (h : (k' == k) = false) :
    (l.map (fun e => if e.1 == k then (k, v) else e)).lookup k' = l.lookup k' := by
  induction l with
  | nil => rfl
  | cons e rest ih =>
    by_cases he : (e.1 == k) = true
    · rw [List.map_cons, if_pos he]
      have he1 : e.1 = k := eq_of_beq he
      simp [List.lookup, h, he1, ih]
    · rw [List.map_cons, if_neg he]
      cases hx : (k' == e.1)
      · simp [List.lookup, hx, ih]
      · simp [List.lookup, hx]

theorem assocSet_lookup_same {κ α : Type} [BEq κ] [LawfulBEq κ]
    (l : List (κ × α)) (k : κ) (v : α) : (assocSet l k v).lookup k = some v := by
  unfold assocSet
  by_cases ha : l.any (fun e => e.1 == k) = true
  · rw [if_pos ha, lookup_mapReplace, if_pos ha]
  · have ha' := bool_eq_false ha
    rw [if_neg ha, lookup_append, lookup_of_any_false ha']
    simp [List.lookup]

theorem assocSet_lookup_other {κ α : Type} [BEq κ] [LawfulBEq κ]
    (l : List (κ × α)) {k k' : κ} (v : α) (h : k' ≠ k) :
    (assocSet l k v).lookup k' = l.lookup k' := by
  have hb : (k' == k) = false := by
    cases hx : (k' == k)
    · rfl
    · exact absurd (eq_of_beq hx) h
  unfold assocSet
  by_cases ha : l.any (fun e => e.1 == k) = true
  · rw [if_pos ha]
    exact lookup_mapReplace_other l v hb
  · rw [if_neg ha, lookup_append]
    cases hx : l.lookup k' with
    | some v2 => rfl
    | none => simp [List.lookup, hb]

/-- Decidable equality for `Except` results, used to evaluate the concrete
resolver scenarios. -/
instance exceptDecEq {ε α : Type} [DecidableEq ε] [DecidableEq α] :
    DecidableEq (Except ε α) := fun x y =>
  match x, y with
  | .ok a, .ok b =>
    if h : a = b then .isTrue (by rw [h])
    else .isFalse (fun hc => h (by injection hc))
  | .error a, .error b =>
    if h : a = b then .isTrue (by rw [h])
    else .isFalse (fun hc => h (by injection hc))
  | .ok _, .error _ => .isFalse (fun hc => Except.noConfusion hc)
  | .error _, .ok _ => .isFalse (fun hc => Except.noConfusion hc)

/-! ### Resolver lemmas -/

theorem resolveStep_elim {c : StoreConfig} {s : StoreState}
    {strategy : ConflictStrategy} {acc : ResolveResult}
    {doc : DocumentFrontmatter × String} {acc' : ResolveResult}
    (h : resolveStep c s strategy acc doc = .ok acc') :
    (getDoc c s doc.1.id = none ∧
      acc' = { resolved := acc.resolved ++ [⟨doc.1, doc.2, doc.1.id, doc.1.id⟩],
               skipped := acc.skipped,
               idMapping := mapSet acc.idMapping doc.1.id doc.1.id }) ∨
    ((∃ e, getDoc c s doc.1.id = some e) ∧ strategy = .skip ∧
      acc' = { acc with skipped := acc.skipped ++ [doc.1.id] }) ∨
    ((∃ e, getDoc c s doc.1.id = some e) ∧ strategy = .overwrite ∧
      acc' = { resolved := acc.resolved ++ [⟨doc.1, doc.2, doc.1.id, doc.1.id⟩],
               skipped := acc.skipped,
               idMapping := mapSet acc.idMapping doc.1.id doc.1.id }) ∨
    (∃ e newId, getDoc c s doc.1.id = some e ∧ strategy = .renumber ∧
      nextId c s doc.1.type = .ok newId ∧
      acc' = { resolved := acc.resolved ++
                 [⟨{ doc.1 with id := newId }, doc.2, doc.1.id, newId⟩],
               skipped := acc.skipped,
               idMapping := mapSet acc.idMapping doc.1.id newId }) := by
  simp only [resolveStep] at h
  split at h
  case h_1 habs =>
    left
    injection h with h1
    exact ⟨habs, h1.symm⟩
  case h_2 e hpres =>
    right
    cases strategy with
    | skip =>
      left
      injection h with h1
      exact ⟨⟨e, hpres⟩, rfl, h1.symm⟩
    | overwrite =>
      right; left
      injection h with h1
      exact ⟨⟨e, hpres⟩, rfl, h1.symm⟩
    | renumber =>
      right; right
      simp only at h
      split at h
      case h_1 => cases h
      case h_2 newId hnext =>
        injection h with h1
        exact ⟨e, newId, hpres, rfl, hnext, h1.symm⟩

theorem resolveGo_resolved_mono {c : StoreConfig} {s : StoreState}
    {strategy : ConflictStrategy} {acc : ResolveResult}
    {rest : List (DocumentFrontmatter × String)} {res : ResolveResult}
    (h : resolveGo c s strategy acc rest = .ok res) {rd : ResolvedDocument}
    (hmem : rd ∈ acc.resolved) : rd ∈ res.resolved := by
  induction rest generalizing acc with
  | nil =>
    simp only [resolveGo] at h
    injection h with h1
    exact h1 ▸ hmem
  | cons doc rest ih =>
    simp only [resolveGo] at h
    cases hstep : resolveStep c s strategy acc doc with
    | error e => rw [hstep] at h; cases h
    | ok acc' =>
      rw [hstep] at h
      refine ih h ?_
      rcases resolveStep_elim hstep with ⟨_, rfl⟩ | ⟨_, _, rfl⟩ | ⟨_, _, rfl⟩ |
        ⟨e, newId, _, _, _, rfl⟩ <;>
        first
          | exact List.mem_append_left _ hmem
          | exact hmem

theorem resolveGo_mapping_stable {c : StoreConfig} {s : StoreState}
    {strategy : ConflictStrategy} {acc : ResolveResult}
    {rest : List (DocumentFrontmatter × String)} {res : ResolveResult} {k : String}
    (hk : getDoc c s k = none)
    (h : resolveGo c s strategy acc rest = .ok res)
    (hacc : acc.idMapping.lookup k = some k) : res.idMapping.lookup k = some k := by
  induction rest generalizing acc with
  | nil =>
    simp only [resolveGo] at h
    injection h with h1
    exact h1 ▸ hacc
  | cons doc rest ih =>
    simp only [resolveGo] at h
    cases hstep : resolveStep c s strategy acc doc with
    | error e => rw [hstep] at h; cases h
    | ok acc' =>
      rw [hstep] at h
      refine ih h ?_
      by_cases hid : doc.1.id = k
      · rcases resolveStep_elim hstep with ⟨habs, rfl⟩ | ⟨⟨e, hpres⟩, _, rfl⟩ |
          ⟨⟨e, hpres⟩, _, rfl⟩ | ⟨e, newId, hpres, _, _, rfl⟩
        · simp only [mapSet, hid]
          exact assocSet_lookup_same _ _ _
        · exact hacc
        · rw [hid] at hpres; rw [hpres] at hk; cases hk
        · rw [hid] at hpres; rw [hpres] at hk; cases hk
      · rcases resolveStep_elim hstep with ⟨habs, rfl⟩ | ⟨⟨e, hpres⟩, _, rfl⟩ |
          ⟨⟨e, hpres⟩, _, rfl⟩ | ⟨e, newId, hpres, _, _, rfl⟩
        · simp only [mapSet]
          rw [assocSet_lookup_other _ _ (fun hc => hid hc.symm)]
          exact hacc
        · exact hacc
        · simp only [mapSet]
          rw [assocSet_lookup_other _ _ (fun hc => hid hc.symm)]
          exact hacc
        · simp only [mapSet]
          rw [assocSet_lookup_other _ _ (fun hc => hid hc.symm)]
          exact hacc

theorem resolveGo_mapping_isSome {c : StoreConfig} {s : StoreState}
    {strategy : ConflictStrategy} {acc : ResolveResult}
    {rest : List (DocumentFrontmatter × String)} {res : ResolveResult} {k : String}
    (h : resolveGo c s strategy acc rest = .ok res)
    (hacc : (acc.idMapping.lookup k).isSome = true) :
    (res.idMapping.lookup k).isSome = true := by
  induction rest generalizing acc with
  | nil =>
    simp only [resolveGo] at h
    injection h with h1
    exact h1 ▸ hacc
  | cons doc rest ih =>
    simp only [resolveGo] at h
    cases hstep : resolveStep c s strategy acc doc with
    | error e => rw [hstep] at h; cases h
    | ok acc' =>
      rw [hstep] at h
      refine ih h ?_
      by_cases hid : doc.1.id = k
      · rcases resolveStep_elim hstep with ⟨_, rfl⟩ | ⟨_, _, rfl⟩ | ⟨_, _, rfl⟩ |
          ⟨e, newId, _, _, _, rfl⟩
        · simp only [mapSet, hid]
          rw [assocSet_lookup_same]
          rfl
        · exact hacc
        · simp only [mapSet, hid]
          rw [assocSet_lookup_same]
          rfl
        · simp only [mapSet, hid]
          rw [assocSet_lookup_same]
          rfl
      · rcases resolveStep_elim hstep with ⟨_, rfl⟩ | ⟨_, _, rfl⟩ | ⟨_, _, rfl⟩ |
          ⟨e, newId, _, _, _, rfl⟩
        · simp only [mapSet]
          rw [assocSet_lookup_other _ _ (fun hc => hid hc.symm)]
          exact hacc
        · exact hacc
        · simp only [mapSet]
          rw [assocSet_lookup_other _ _ (fun hc => hid hc.symm)]
          exact hacc
        · simp only [mapSet]
          rw [assocSet_lookup_other _ _ (fun hc => hid hc.symm)]
          exact hacc

theorem resolveGo_skip_absent {c : StoreConfig} {s : StoreState}
    {acc : ResolveResult} {rest : List (DocumentFrontmatter × String)}
    {res : ResolveResult} {k : String} {e : DocFile}
    (hk : getDoc c s k = some e)
    (h : resolveGo c s .skip acc rest = .ok res)
    (hacc : acc.idMapping.lookup k = none) : res.idMapping.lookup k = none := by
  induction rest generalizing acc with
  | nil =>
    simp only [resolveGo] at h
    injection h with h1
    exact h1 ▸ hacc
  | cons doc rest ih =>
    simp only [resolveGo] at h
    cases hstep : resolveStep c s .skip acc doc with
    | error e2 => rw [hstep] at h; cases h
    | ok acc' =>
      rw [hstep] at h
      refine ih h ?_
      rcases resolveStep_elim hstep with ⟨habs, rfl⟩ | ⟨_, _, rfl⟩ | ⟨_, hcontra, _⟩ |
        ⟨e2, newId, _, hcontra, _, _⟩
      · have hid : doc.1.id ≠ k := by
          intro hc
          rw [hc, hk] at habs
          cases habs
        simp only [mapSet]
        rw [assocSet_lookup_other _ _ (fun hc => hid hc.symm)]
        exact hacc
      · exact hacc
      · cases hcontra
      · cases hcontra

theorem resolveGo_mem_absent {c : StoreConfig} {s : StoreState}
    {strategy : ConflictStrategy} {acc : ResolveResult}
    {rest : List (DocumentFrontmatter × String)} {res : ResolveResult}
    (h : resolveGo c s strategy acc rest = .ok res)
    {d : DocumentFrontmatter × String} (hd : d ∈ rest)
    (habs : getDoc c s d.1.id = none) :
    (∃ rd ∈ res.resolved, rd.fm = d.1 ∧ rd.content = d.2 ∧
      rd.originalId = d.1.id ∧ rd.newId = d.1.id) ∧
    res.idMapping.lookup d.1.id = some d.1.id := by
  induction rest generalizing acc with
  | nil => cases hd
  | cons doc rest ih =>
    simp only [resolveGo] at h
    cases hstep : resolveStep c s strategy acc doc with
    | error e => rw [hstep] at h; cases h
    | ok acc' =>
      rw [hstep] at h
      rcases List.mem_cons.mp hd with rfl | hd
      · rcases resolveStep_elim hstep with ⟨_, rfl⟩ | ⟨⟨e, hpres⟩, _, _⟩ |
          ⟨⟨e, hpres⟩, _, _⟩ | ⟨e, newId, hpres, _, _, _⟩
        · constructor
          · refine ⟨⟨d.1, d.2, d.1.id, d.1.id⟩, ?_, rfl, rfl, rfl, rfl⟩
            exact resolveGo_resolved_mono h
              (List.mem_append_right _ (List.mem_singleton.mpr rfl))
          · refine resolveGo_mapping_stable habs h ?_
            simp only [mapSet]
            exact assocSet_lookup_same _ _ _
        · rw [hpres] at habs; cases habs
        · rw [hpres] at habs; cases habs
        · rw [hpres] at habs; cases habs
      · exact ih h hd

theorem resolveGo_mem_present {c : StoreConfig} {s : StoreState}
    {strategy : ConflictStrategy} (hst : strategy ≠ .skip) {acc : ResolveResult}
    {rest : List (DocumentFrontmatter × String)} {res : ResolveResult}
    (h : resolveGo c s strategy acc rest = .ok res)
    {d : DocumentFrontmatter × String} (hd : d ∈ rest) {e : DocFile}
    (hpres : getDoc c s d.1.id = some e) :
    (res.idMapping.lookup d.1.id).isSome = true := by
  induction rest generalizing acc with
  | nil => cases hd
  | cons doc rest ih =>
    simp only [resolveGo] at h
    cases hstep : resolveStep c s strategy acc doc with
    | error e2 => rw [hstep] at h; cases h
    | ok acc' =>
      rw [hstep] at h
      rcases List.mem_cons.mp hd with rfl | hd
      · rcases resolveStep_elim hstep with ⟨habs, _⟩ | ⟨_, hsk, _⟩ | ⟨_, _, rfl⟩ |
          ⟨e2, newId, _, _, _, rfl⟩
        · rw [hpres] at habs; cases habs
        · exact absurd hsk hst
        · refine resolveGo_mapping_isSome h ?_
          simp only [mapSet]
          rw [assocSet_lookup_same]
          rfl
        · refine resolveGo_mapping_isSome h ?_
          simp only [mapSet]
          rw [assocSet_lookup_same]
          rfl
      · exact ih h hd

/-- C2: conflict resolution over a store holding decision `D-001` and an
incoming document also claiming `D-001`: `skip` resolves nothing and
records `D-001` as skipped; `overwrite` resolves it under its original id
with the incoming frontmatter and content; `renumber` resolves it under
the freshly allocated `D-002` with the mapping entry `D-001 → D-002`; and
in general every incoming document whose id is absent from the store
resolves with `newId = originalId` and an identity mapping entry. -/
theorem claim2_conflict_resolution :
    (resolveConflicts [(demoIncomingFm, "New content")] commonConfig demoStore
        .skip = .ok ⟨[], ["D-001"], []⟩) ∧
    (resolveConflicts [(demoIncomingFm, "New content")] commonConfig demoStore
        .overwrite =
      .ok ⟨[⟨demoIncomingFm, "New content", "D-001", "D-001"⟩], [],
        [("D-001", "D-001")]⟩) ∧
    (resolveConflicts [(demoIncomingFm, "New content")] commonConfig demoStore
        .renumber =
      .ok ⟨[⟨{ demoIncomingFm with id := "D-002" }, "New content", "D-001",
        "D-002"⟩], [], [("D-001", "D-002")]⟩) ∧
    (∀ (c : StoreConfig) (s : StoreState) (strategy : ConflictStrategy)
       (incoming : List (DocumentFrontmatter × String)) (res : ResolveResult),
      resolveConflicts incoming c s strategy = .ok res →
      ∀ d ∈ incoming, getDoc c s d.1.id = none →
        (∃ rd ∈ res.resolved, rd.fm = d.1 ∧ rd.content = d.2 ∧
          rd.originalId = d.1.id ∧ rd.newId = d.1.id) ∧
        res.idMapping.lookup d.1.id = some d.1.id) := by
  refine ⟨by decide, by decide, by decide, ?_⟩
  intro c s strategy incoming res h d hd habs
  exact resolveGo_mem_absent h hd habs

theorem claim2_conflict_resolution_witness :
    (∃ rd ∈ ([⟨demoIncomingFm, "New content", "D-001", "D-001"⟩] :
        List ResolvedDocument), rd.fm = demoIncomingFm ∧ rd.content = "New content" ∧
      rd.originalId = demoIncomingFm.id ∧ rd.newId = demoIncomingFm.id) ∧
    ([("D-001", "D-001")] : List (String × String)).lookup demoIncomingFm.id =
      some demoIncomingFm.id :=
  claim2_conflict_resolution.2.2.2 commonConfig emptyStore .renumber
    [(demoIncomingFm, "New content")]
    ⟨[⟨demoIncomingFm, "New content", "D-001", "D-001"⟩], [], [("D-001", "D-001")]⟩
    (by decide) (demoIncomingFm, "New content") (by decide) (by decide)

/-- C8 fails on the code: under the `skip` strategy a conflicting incoming
document is dropped without any idMapping entry, so the map does not cover
the whole batch. -/
theorem claim8_counterexample :
    resolveConflicts [(demoIncomingFm, "New content")] commonConfig demoStore
        .skip = .ok ⟨[], ["D-001"], []⟩ ∧
    ([] : List (String × String)).lookup "D-001" = none := by
  decide

/-- C8 (amended): the idMapping covers every *resolved* document of the
batch — absent ids map to themselves, conflicting ids under `overwrite`
or `renumber` have an entry — but a conflicting id under `skip` has no
entry. -/
theorem claim8_mapping_coverage_amended :
    ∀ (c : StoreConfig) (s : StoreState) (strategy : ConflictStrategy)
      (incoming : List (DocumentFrontmatter × String)) (res : ResolveResult),
      resolveConflicts incoming c s strategy = .ok res →
      ∀ d ∈ incoming,
        (getDoc c s d.1.id = none →
          res.idMapping.lookup d.1.id = some d.1.id) ∧
        (∀ e : DocFile, getDoc c s d.1.id = some e → strategy ≠ .skip →
          (res.idMapping.lookup d.1.id).isSome = true) ∧
        (∀ e : DocFile, getDoc c s d.1.id = some e → strategy = .skip →
          res.idMapping.lookup d.1.id = none) := by
  intro c s strategy incoming res h d hd
  refine ⟨fun habs => (resolveGo_mem_absent h hd habs).2,
    fun e hpres hst => resolveGo_mem_present hst h hd hpres,
    fun e hpres hst => ?_⟩
  subst hst
  exact resolveGo_skip_absent hpres h rfl

theorem claim8_mapping_coverage_amended_witness :
    (([("D-001", "D-002")] : List (String × String)).lookup
      demoIncomingFm.id).isSome = true :=
  (claim8_mapping_coverage_amended commonConfig demoStore .renumber
    [(demoIncomingFm, "New content")]
    ⟨[⟨{ demoIncomingFm with id := "D-002" }, "New content", "D-001", "D-002"⟩],
      [], [("D-001", "D-002")]⟩
    (by decide) (demoIncomingFm, "New content") (by decide)).2.1
    demoExistingFile (by decide) (by decide)

/-- C7: `importDocument` fails whenever a document with the supplied id
already exists, returning the store unchanged (the source throws before
any write); and on success the document is stored exactly as supplied —
never overwritten with other frontmatter, never renumbered. -/
theorem claim7_import_conflict :
    (∀ (c : StoreConfig) (s : StoreState) (t : String)
       (fm : DocumentFrontmatter) (content : String) (e : DocFile),
      getDoc c s fm.id = some e →
      (importDocument c s t fm content).1 = s ∧
        ∃ msg, (importDocument c s t fm content).2 = .error msg) ∧
    (∀ (c : StoreConfig) (s : StoreState) (t : String)
       (fm : DocumentFrontmatter) (content : String) (s' : StoreState)
       (df : DocFile),
      importDocument c s t fm content = (s', .ok df) →
      df.fm = fm ∧ df.content = content) := by
  constructor
  · intro c s t fm content e hpres
    unfold importDocument
    cases hdir : c.typeDirs.lookup t with
    | none => exact ⟨rfl, _, rfl⟩
    | some dir =>
      rw [hpres]
      exact ⟨rfl, _, rfl⟩
  · intro c s t fm content s' df h
    unfold importDocument at h
    cases hdir : c.typeDirs.lookup t with
    | none =>
      rw [hdir] at h
      injection h with h1 h2
      cases h2
    | some dir =>
      rw [hdir] at h
      cases hget : getDoc c s fm.id with
      | some e =>
        rw [hget] at h
        injection h with h1 h2
        cases h2
      | none =>
        rw [hget] at h
        injection h with h1 h2
        injection h2 with h3
        rw [← h3]
        exact ⟨rfl, rfl⟩

theorem claim7_import_conflict_witness :
    (importDocument commonConfig demoStore "decision" demoIncomingFm "X").1 =
        demoStore ∧
      ∃ msg, (importDocument commonConfig demoStore "decision" demoIncomingFm
        "X").2 = .error msg :=
  claim7_import_conflict.1 commonConfig demoStore "decision" demoIncomingFm "X"
    demoExistingFile (by decide)

/-! ## Source manifest (`src/sources/manifest.ts`)

The intake directory is a list of (file name, byte content) pairs in
`readdirSync` order; the content hash (`sha256` hex digest) is an
uninterpreted function argument.  The manifest is the in-memory structure;
`save()` persists it wholesale and is not itself subject to any claim. -/

/-- `SourceFileStatus` from `src/sources/types.ts`. -/
inductive SourceFileStatus where
  | pending
  | processing
  | completed
  | error
deriving DecidableEq, Repr

/-- `SourceFileEntry` from `src/sources/types.ts`. -/
structure SourceFileEntry where
  hash : String
  addedAt : String
  processedAt : Option String
  status : SourceFileStatus
  artifacts : List String
  error : Option String
deriving DecidableEq, Repr

/-- `SourceManifest` from `src/sources/types.ts`. -/
structure SourceManifest where
  version : Nat
  files : List (String × SourceFileEntry)
deriving DecidableEq, Repr

def emptyManifest : SourceManifest := ⟨1, []⟩

/-- `path.extname(f).toLowerCase()` for a plain file name: the suffix from
the last dot, empty when there is none or when the only dot is leading. -/
def extnameLower (fname : String) : String :=
  let r := fname.data.reverse
  let pre := r.takeWhile (fun c => decide (c ≠ '.'))
  if pre.length = r.length then ""
  else if pre.length + 1 = r.length then ""
  else String.mk (('.' :: pre.reverse).map Char.toLower)

/-- `SOURCE_EXTENSIONS.includes(ext)`. -/
def sourceExtOk (fname : String) : Bool :=
  [".pdf", ".md", ".txt"].contains (extnameLower fname)

/-- The result sets of one `scan()`. -/
structure ScanResult where
  added : List String
  changed : List String
  removed : List String
deriving DecidableEq, Repr

/-- One iteration of the new/changed detection loop. -/
def scanStep (hashFn : String → String) (now : String)
    (acc : SourceManifest × List String × List String) (f : String × String) :
    SourceManifest × List String × List String :=
  let mm := acc.1
  let hash := hashFn f.2
  match mm.files.lookup f.1 with
  | none =>
    ({ mm with files := (assocSet mm.files f.1
        ⟨hash, now, none, .pending, [], none⟩) },
      acc.2.1 ++ [f.1], acc.2.2)
  | some e =>
    let e2 : SourceFileEntry :=
      { hash := hash, addedAt := e.addedAt, processedAt := none,
        status := .pending, artifacts := [], error := none }
    if e.hash ≠ hash then
      ({ mm with files := (assocSet mm.files f.1 e2) }, acc.2.1, acc.2.2 ++ [f.1])
    else acc

/-- `SourceManifestManager.scan`. -/
def scan (hashFn : String → String) (now : String)
    (disk : List (String × String)) (m : SourceManifest) :
    SourceManifest × ScanResult :=
  let onDisk := disk.filter (fun f => sourceExtOk f.1)
  let phase1 := onDisk.foldl (scanStep hashFn now) (m, [], [])
  let names := onDisk.map Prod.fst
  let removed := (phase1.1.files.map Prod.fst).filter (fun n => !(names.contains n))
  let m2 := { phase1.1 with files := (phase1.1.files.filter
    (fun p => names.contains p.1)) }
  (m2, ⟨phase1.2.1, phase1.2.2, removed⟩)

/-! ### Manifest loading (`SourceManifestManager.load`, claim C9)

`load` reads the persisted manifest with `readFileSync` and parses it with
`YAML.parse`; the third-party `yaml` package throws on malformed input and
returns `null` for empty input.  The file state and parse outcome are
modelled explicitly; an exception is an `.error` that propagates out of
the constructor, since `load` has no try/catch. -/

/-- Outcome of `YAML.parse` on the manifest bytes. -/
inductive YamlOutcome where
  | throws (msg : String)
  | nullish
  | value (m : SourceManifest)
deriving DecidableEq, Repr

/-- State of the persisted manifest file at construction time. -/
inductive ManifestFileState where
  | missing
  | unreadable (msg : String)
  | readable (outcome : YamlOutcome)
deriving DecidableEq, Repr

/-- `SourceManifestManager.load`: missing file → empty manifest; a read
error or parse error propagates (no try/catch); a null parse
(`parsed ?? emptyManifest()`) → empty manifest. -/
def loadManifest : ManifestFileState → Except String SourceManifest
  | .missing => .ok emptyManifest
  | .unreadable msg => .error msg
  | .readable (.throws msg) => .error msg
  | .readable .nullish => .ok emptyManifest
  | .readable (.value m) => .ok m

/-- C9 fails on the code: a corrupt manifest file makes `YAML.parse`
throw, and `load` has no handler, so construction fails instead of
falling back to an empty manifest. -/
theorem claim9_counterexample :
    loadManifest (.readable (.throws "YAMLParseError: unexpected end")) =
        .error "YAMLParseError: unexpected end" ∧
      loadManifest (.readable (.throws "YAMLParseError: unexpected end")) ≠
        .ok emptyManifest := by
  constructor
  · rfl
  · intro h
    cases h

/-- C9 (amended): only a *missing* manifest file, or one whose content
parses to null (e.g. an empty file), is treated as an empty manifest;
an unreadable file or one that fails YAML parsing propagates the
exception out of construction. -/
theorem claim9_load_tolerance_amended :
    loadManifest .missing = .ok emptyManifest ∧
    loadManifest (.readable .nullish) = .ok emptyManifest ∧
    (∀ msg, loadManifest (.unreadable msg) = .error msg) ∧
    (∀ msg, loadManifest (.readable (.throws msg)) = .error msg) ∧
    (∀ m, loadManifest (.readable (.value m)) = .ok m) := by
  exact ⟨rfl, rfl, fun msg => rfl, fun msg => rfl, fun m => rfl⟩

/-! ### Scan lemmas -/

theorem contains_true_iff_mem {l : List String} {n : String} :
    l.contains n = true ↔ n ∈ l := by
  induction l with
  | nil => simp
  | cons x xs ih =>
    simp only [List.contains_cons, Bool.or_eq_true, List.mem_cons]
    constructor
    · rintro (h | h)
      · exact Or.inl (eq_of_beq h)
      · exact Or.inr (ih.mp h)
    · rintro (rfl | h)
      · exact Or.inl (beq_self_eq_true n)
      · exact Or.inr (ih.mpr h)

theorem lookup_some_mem_keys {α : Type} {l : List (String × α)} {n : String}
    {e : α} (h : l.lookup n = some e) : n ∈ l.map Prod.fst := by
  induction l with
  | nil => cases h
  | cons p rest ih =>
    simp only [List.lookup] at h
    cases hx : (n == p.1) with
    | true =>
      simp only [List.map_cons, List.mem_cons]
      exact Or.inl (eq_of_beq hx)
    | false =>
      rw [hx] at h
      simp only [List.map_cons, List.mem_cons]
      exact Or.inr (ih h)

theorem lookup_filter_contains {α : Type} {l : List (String × α)}
    {names : List String} {n : String} (h : names.contains n = true) :
    (l.filter (fun p => names.contains p.1)).lookup n = l.lookup n := by
  induction l with
  | nil => rfl
  | cons p rest ih =>
    by_cases hp : names.contains p.1 = true
    · rw [List.filter_cons, if_pos hp]
      simp only [List.lookup]
      cases hx : (n == p.1)
      · exact ih
      · rfl
    · have hp' := bool_eq_false hp
      have hnp : (n == p.1) = false := by
        cases hx : (n == p.1)
        · rfl
        · rw [eq_of_beq hx] at h
          rw [h] at hp'
          cases hp'
      rw [List.filter_cons, if_neg hp]
      simp only [List.lookup, hnp] at ih ⊢
      exact ih

theorem lookup_filter_not_contains {α : Type} {l : List (String × α)}
    {names : List String} {n : String} (h : names.contains n = false) :
    (l.filter (fun p => names.contains p.1)).lookup n = none := by
  induction l with
  | nil => rfl
  | cons p rest ih =>
    by_cases hp : names.contains p.1 = true
    · have hnp : (n == p.1) = false := by
        cases hx : (n == p.1)
        · rfl
        · rw [← eq_of_beq hx] at hp
          rw [hp] at h
          cases h
      rw [List.filter_cons, if_pos hp]
      simp only [List.lookup, hnp]
      exact ih
    · rw [List.filter_cons, if_neg hp]
      exact ih

theorem scanStep_lookup_other {hashFn : String → String} {now : String}
    {acc : SourceManifest × List String × List String} {f : String × String}
    {n : String} (h : n ≠ f.1) :
    (scanStep hashFn now acc f).1.files.lookup n = acc.1.files.lookup n := by
  simp only [scanStep]
  split
  · exact assocSet_lookup_other _ _ h
  · split
    · exact assocSet_lookup_other _ _ h
    · rfl

theorem scanStep_sets_mono {hashFn : String → String} {now : String}
    {acc : SourceManifest × List String × List String} {f : String × String}
    {n : String} :
    (n ∈ acc.2.1 → n ∈ (scanStep hashFn now acc f).2.1) ∧
    (n ∈ acc.2.2 → n ∈ (scanStep hashFn now acc f).2.2) := by
  simp only [scanStep]
  split
  · exact ⟨fun h => List.mem_append_left _ h, fun h => h⟩
  · split
    · exact ⟨fun h => h, fun h => List.mem_append_left _ h⟩
    · exact ⟨fun h => h, fun h => h⟩

theorem scanFold_lookup_other {hashFn : String → String} {now : String}
    {fs : List (String × String)} {n : String} (h : ∀ f ∈ fs, n ≠ f.1) :
    ∀ acc, (fs.foldl (scanStep hashFn now) acc).1.files.lookup n =
      acc.1.files.lookup n := by
  induction fs with
  | nil => intro acc; rfl
  | cons f rest ih =>
    intro acc
    simp only [List.foldl_cons]
    rw [ih (fun g hg => h g (List.mem_cons_of_mem _ hg))]
    exact scanStep_lookup_other (h f (List.mem_cons_self _ _))

theorem scanFold_sets_mono {hashFn : String → String} {now : String}
    {fs : List (String × String)} {n : String} :
    ∀ acc, (n ∈ acc.2.1 → n ∈ (fs.foldl (scanStep hashFn now) acc).2.1) ∧
      (n ∈ acc.2.2 → n ∈ (fs.foldl (scanStep hashFn now) acc).2.2) := by
  induction fs with
  | nil => intro acc; exact ⟨id, id⟩
  | cons f rest ih =>
    intro acc
    simp only [List.foldl_cons]
    exact ⟨fun h => (ih _).1 (scanStep_sets_mono.1 h),
      fun h => (ih _).2 (scanStep_sets_mono.2 h)⟩

theorem scanFold_process {hashFn : String → String} {now : String}
    {fs : List (String × String)} (hnodup : (fs.map Prod.fst).Nodup)
    {n b : String} (hmem : (n, b) ∈ fs) :
    ∀ acc : SourceManifest × List String × List String,
    (acc.1.files.lookup n = none →
      (fs.foldl (scanStep hashFn now) acc).1.files.lookup n =
          some ⟨hashFn b, now, none, .pending, [], none⟩ ∧
        n ∈ (fs.foldl (scanStep hashFn now) acc).2.1) ∧
    (∀ e, acc.1.files.lookup n = some e → ¬e.hash = hashFn b →
      (fs.foldl (scanStep hashFn now) acc).1.files.lookup n =
          some ⟨hashFn b, e.addedAt, none, .pending, [], none⟩ ∧
        n ∈ (fs.foldl (scanStep hashFn now) acc).2.2) ∧
    (∀ e, acc.1.files.lookup n = some e → e.hash = hashFn b →
      (fs.foldl (scanStep hashFn now) acc).1.files.lookup n = some e) := by
  induction fs with
  | nil => cases hmem
  | cons f rest ih =>
    intro acc
    simp only [List.map_cons, List.nodup_cons] at hnodup
    rcases List.mem_cons.mp hmem with heq | hmem'
    · obtain rfl : f = (n, b) := heq.symm
      have hrest : ∀ g ∈ rest, n ≠ g.1 := by
        intro g hg hc
        refine hnodup.1 ?_
        rw [show ((n, b) : String × String).1 = n from rfl, hc]
        exact List.mem_map_of_mem Prod.fst hg
      simp only [List.foldl_cons]
      refine ⟨?_, ?_, ?_⟩
      · intro hnone
        constructor
        · rw [scanFold_lookup_other hrest]
          simp only [scanStep, hnone]
          exact assocSet_lookup_same _ _ _
        · refine (scanFold_sets_mono _).1 ?_
          simp only [scanStep, hnone]
          exact List.mem_append_right _ (List.mem_singleton.mpr rfl)
      · intro e hsome hne
        constructor
        · rw [scanFold_lookup_other hrest]
          simp only [scanStep, hsome]
          rw [if_pos hne]
          exact assocSet_lookup_same _ _ _
        · refine (scanFold_sets_mono _).2 ?_
          simp only [scanStep, hsome]
          rw [if_pos hne]
          exact List.mem_append_right _ (List.mem_singleton.mpr rfl)
      · intro e hsome heq2
        rw [scanFold_lookup_other hrest]
        simp only [scanStep, hsome]
        rw [if_neg (fun hc => hc heq2)]
        exact hsome
    · have hfn : n ≠ f.1 := by
        intro hc
        refine hnodup.1 ?_
        rw [← hc]
        exact List.mem_map_of_mem Prod.fst hmem'
      simp only [List.foldl_cons]
      have hpres := @scanStep_lookup_other hashFn now acc f n hfn
      have hrec := ih hnodup.2 hmem' (scanStep hashFn now acc f)
      refine ⟨?_, ?_, ?_⟩
      · intro hnone
        exact hrec.1 (by rw [hpres]; exact hnone)
      · intro e hsome hne
        exact hrec.2.1 e (by rw [hpres]; exact hsome) hne
      · intro e hsome heq2
        exact hrec.2.2 e (by rw [hpres]; exact hsome) heq2

theorem scanFold_noop {hashFn : String → String} {now : String}
    {fs : List (String × String)} :
    ∀ acc : SourceManifest × List String × List String,
    (∀ f ∈ fs, ∃ e, acc.1.files.lookup f.1 = some e ∧ e.hash = hashFn f.2) →
    fs.foldl (scanStep hashFn now) acc = acc := by
  induction fs with
  | nil => intro acc _; rfl
  | cons f rest ih =>
    intro acc h
    obtain ⟨e, hsome, hhash⟩ := h f (List.mem_cons_self _ _)
    have hstep : scanStep hashFn now acc f = acc := by
      simp only [scanStep, hsome]
      rw [if_neg (fun hc => hc hhash)]
    simp only [List.foldl_cons, hstep]
    exact ih acc (fun g hg => h g (List.mem_cons_of_mem _ hg))

theorem scan_added {hashFn : String → String} {now : String}
    {disk : List (String × String)} {m : SourceManifest} {n b : String}
    (hnodup : (disk.map Prod.fst).Nodup) (hmem : (n, b) ∈ disk)
    (hext : sourceExtOk n = true) (hnone : m.files.lookup n = none) :
    (scan hashFn now disk m).1.files.lookup n =
        some ⟨hashFn b, now, none, .pending, [], none⟩ ∧
      n ∈ (scan hashFn now disk m).2.added := by
  have hmem' : (n, b) ∈ disk.filter (fun f => sourceExtOk f.1) :=
    List.mem_filter.mpr ⟨hmem, hext⟩
  have hnodup' : ((disk.filter (fun f => sourceExtOk f.1)).map Prod.fst).Nodup :=
    List.Nodup.sublist (List.Sublist.map _ (List.filter_sublist _)) hnodup
  have hcontains :
      ((disk.filter (fun f => sourceExtOk f.1)).map Prod.fst).contains n = true :=
    contains_true_iff_mem.mpr (List.mem_map_of_mem Prod.fst hmem')
  have h := (@scanFold_process hashFn now _ hnodup' n b hmem' (m, [], [])).1 hnone
  simp only [scan]
  exact ⟨by rw [lookup_filter_contains hcontains]; exact h.1, h.2⟩

theorem scan_changed {hashFn : String → String} {now : String}
    {disk : List (String × String)} {m : SourceManifest} {n b : String}
    {e : SourceFileEntry}
    (hnodup : (disk.map Prod.fst).Nodup) (hmem : (n, b) ∈ disk)
    (hext : sourceExtOk n = true) (hsome : m.files.lookup n = some e)
    (hne : ¬e.hash = hashFn b) :
    (scan hashFn now disk m).1.files.lookup n =
        some ⟨hashFn b, e.addedAt, none, .pending, [], none⟩ ∧
      n ∈ (scan hashFn now disk m).2.changed := by
  have hmem' : (n, b) ∈ disk.filter (fun f => sourceExtOk f.1) :=
    List.mem_filter.mpr ⟨hmem, hext⟩
  have hnodup' : ((disk.filter (fun f => sourceExtOk f.1)).map Prod.fst).Nodup :=
    List.Nodup.sublist (List.Sublist.map _ (List.filter_sublist _)) hnodup
  have hcontains :
      ((disk.filter (fun f => sourceExtOk f.1)).map Prod.fst).contains n = true :=
    contains_true_iff_mem.mpr (List.mem_map_of_mem Prod.fst hmem')
  have h := (@scanFold_process hashFn now _ hnodup' n b hmem' (m, [], [])).2.1 e hsome hne
  simp only [scan]
  exact ⟨by rw [lookup_filter_contains hcontains]; exact h.1, h.2⟩

theorem scan_unchanged {hashFn : String → String} {now : String}
    {disk : List (String × String)} {m : SourceManifest} {n b : String}
    {e : SourceFileEntry}
    (hnodup : (disk.map Prod.fst).Nodup) (hmem : (n, b) ∈ disk)
    (hext : sourceExtOk n = true) (hsome : m.files.lookup n = some e)
    (hh : e.hash = hashFn b) :
    (scan hashFn now disk m).1.files.lookup n = some e := by
  have hmem' : (n, b) ∈ disk.filter (fun f => sourceExtOk f.1) :=
    List.mem_filter.mpr ⟨hmem, hext⟩
  have hnodup' : ((disk.filter (fun f => sourceExtOk f.1)).map Prod.fst).Nodup :=
    List.Nodup.sublist (List.Sublist.map _ (List.filter_sublist _)) hnodup
  have hcontains :
      ((disk.filter (fun f => sourceExtOk f.1)).map Prod.fst).contains n = true :=
    contains_true_iff_mem.mpr (List.mem_map_of_mem Prod.fst hmem')
  have h := (@scanFold_process hashFn now _ hnodup' n b hmem' (m, [], [])).2.2 e hsome hh
  simp only [scan]
  rw [lookup_filter_contains hcontains]
  exact h

theorem scan_removed {hashFn : String → String} {now : String}
    {disk : List (String × String)} {m : SourceManifest} {n : String}
    {e : SourceFileEntry}
    (hsome : m.files.lookup n = some e) (habs : ∀ b, (n, b) ∉ disk) :
    n ∈ (scan hashFn now disk m).2.removed ∧
      (scan hashFn now disk m).1.files.lookup n = none := by
  have hnames : ∀ f ∈ disk.filter (fun f => sourceExtOk f.1), n ≠ f.1 := by
    intro f hf hc
    obtain ⟨fn, fb⟩ := f
    exact habs fb (by rw [show n = fn from hc]; exact (List.mem_filter.mp hf).1)
  have hlook : ((disk.filter (fun f => sourceExtOk f.1)).foldl
      (scanStep hashFn now) (m, [], [])).1.files.lookup n = some e := by
    rw [scanFold_lookup_other hnames]
    exact hsome
  have hkey := lookup_some_mem_keys hlook
  have hnc : ((disk.filter (fun f => sourceExtOk f.1)).map Prod.fst).contains n
      = false := by
    cases hx : ((disk.filter (fun f => sourceExtOk f.1)).map Prod.fst).contains n
    · rfl
    · obtain ⟨f, hf, hfe⟩ := List.mem_map.mp (contains_true_iff_mem.mp hx)
      exact absurd hfe.symm (hnames f hf)
  simp only [scan]
  refine ⟨List.mem_filter.mpr ⟨hkey, by rw [hnc]; rfl⟩, ?_⟩
  exact lookup_filter_not_contains hnc

theorem scan_noop {hashFn : String → String} {now : String}
    {disk : List (String × String)} {m : SourceManifest}
    (hfix : ∀ f ∈ disk.filter (fun f => sourceExtOk f.1),
        ∃ e, m.files.lookup f.1 = some e ∧ e.hash = hashFn f.2)
    (hkeys : ∀ p ∈ m.files,
        ((disk.filter (fun f => sourceExtOk f.1)).map Prod.fst).contains p.1
          = true) :
    scan hashFn now disk m = (m, ⟨[], [], []⟩) := by
  have hnoop := @scanFold_noop hashFn now
    (disk.filter (fun f => sourceExtOk f.1)) (m, [], []) hfix
  have h1 : m.files.filter
      (fun p => ((disk.filter (fun f => sourceExtOk f.1)).map Prod.fst).contains
        p.1) = m.files :=
    List.filter_eq_self.mpr (fun p hp => hkeys p hp)
  have h2 : (m.files.map Prod.fst).filter
      (fun n => !(((disk.filter (fun f => sourceExtOk f.1)).map
        Prod.fst).contains n)) = [] := by
    apply List.filter_eq_nil_iff.mpr
    intro a ha
    obtain ⟨p, hp, rfl⟩ := List.mem_map.mp ha
    rw [hkeys p hp]
    decide
  simp only [scan, hnoop, h1, h2]

theorem scan_idem {hashFn : String → String} {now now2 : String}
    {disk : List (String × String)} {m : SourceManifest}
    (hnodup : (disk.map Prod.fst).Nodup) :
    scan hashFn now2 disk (scan hashFn now disk m).1 =
      ((scan hashFn now disk m).1, ⟨[], [], []⟩) := by
  apply scan_noop
  · intro f hf
    obtain ⟨fn, fb⟩ := f
    obtain ⟨hfd, hfx⟩ := List.mem_filter.mp hf
    cases hm : m.files.lookup fn with
    | none => exact ⟨_, (scan_added hnodup hfd hfx hm).1, rfl⟩
    | some e =>
      by_cases hh : e.hash = hashFn fb
      · exact ⟨e, scan_unchanged hnodup hfd hfx hm hh, hh⟩
      · exact ⟨_, (scan_changed hnodup hfd hfx hm hh).1, rfl⟩
  · intro p hp
    simp only [scan] at hp
    exact (List.mem_filter.mp hp).2

/-- Claim C5: a `scan` reports a disk file with a recognized extension and no
manifest entry in `added`, installing a fresh `pending` entry; a file whose
hash differs from its entry's stored hash in `changed`, with the entry reset
to `pending`, artifacts cleared, `processedAt` nulled and `error` cleared
(its `addedAt` kept); a manifest entry whose name is no longer on disk in
`removed`, deleting it from the manifest; and a second scan over the same
disk contents returns three empty sets. -/
theorem claim5_manifest_change_detection
    (hashFn : String → String) (now now2 : String)
    (disk : List (String × String)) (m : SourceManifest)
    (hnodup : (disk.map Prod.fst).Nodup) :
    (∀ n b, (n, b) ∈ disk → sourceExtOk n = true → m.files.lookup n = none →
      n ∈ (scan hashFn now disk m).2.added ∧
      (scan hashFn now disk m).1.files.lookup n =
        some ⟨hashFn b, now, none, .pending, [], none⟩) ∧
    (∀ n b e, (n, b) ∈ disk → sourceExtOk n = true →
      m.files.lookup n = some e → ¬e.hash = hashFn b →
      n ∈ (scan hashFn now disk m).2.changed ∧
      (scan hashFn now disk m).1.files.lookup n =
        some ⟨hashFn b, e.addedAt, none, .pending, [], none⟩) ∧
    (∀ n e, m.files.lookup n = some e → (∀ b, (n, b) ∉ disk) →
      n ∈ (scan hashFn now disk m).2.removed ∧
      (scan hashFn now disk m).1.files.lookup n = none) ∧
    scan hashFn now2 disk (scan hashFn now disk m).1 =
      ((scan hashFn now disk m).1, ⟨[], [], []⟩) := by
  refine ⟨?_, ?_, ?_, scan_idem hnodup⟩
  · intro n b hmem hext hnone
    obtain ⟨h1, h2⟩ := scan_added hnodup hmem hext hnone
    exact ⟨h2, h1⟩
  · intro n b e hmem hext hsome hne
    obtain ⟨h1, h2⟩ := scan_changed hnodup hmem hext hsome hne
    exact ⟨h2, h1⟩
  · intro n e hsome habs
    exact scan_removed hsome habs

theorem claim5_manifest_change_detection_witness :
    "a.md" ∈ (scan (fun s => String.append "#" s) "t1"
        [("a.md", "A"), ("b.txt", "B")] emptyManifest).2.added ∧
    (scan (fun s => String.append "#" s) "t1"
        [("a.md", "A"), ("b.txt", "B")] emptyManifest).1.files.lookup "a.md" =
      some ⟨String.append "#" "A", "t1", none, .pending, [], none⟩ :=
  (claim5_manifest_change_detection (fun s => String.append "#" s) "t1" "t2"
      [("a.md", "A"), ("b.txt", "B")] emptyManifest (by decide)).1
    "a.md" "A" (by decide) (by decide) (by decide)

/-! ### Identifier allocation (`DocumentStore.nextId`, claim C4) -/

theorem strDataAppend (a b : String) : (a ++ b).data = a.data ++ b.data := rfl

theorem isDigitC_digitChar {d : Nat} (h : d < 10) : isDigitC (digitChar d) = true := by
  interval_cases d <;> decide

theorem digitChar_val {d : Nat} (h : d < 10) :
    (digitChar d).toNat - Char.toNat (Char.ofNat 48) = d := by
  interval_cases d <;> decide

theorem natDigitsF_digits : ∀ fuel n, ∀ c ∈ natDigitsF fuel n, isDigitC c = true := by
  intro fuel
  induction fuel with
  | zero => intro n c hc; cases hc
  | succ fuel ih =>
    intro n c hc
    simp only [natDigitsF] at hc
    by_cases hn : n < 10
    · rw [if_pos hn] at hc
      rcases List.mem_singleton.mp hc with rfl
      exact isDigitC_digitChar hn
    · rw [if_neg hn] at hc
      rcases List.mem_append.mp hc with h | h
      · exact ih _ c h
      · rcases List.mem_singleton.mp h with rfl
        exact isDigitC_digitChar (Nat.mod_lt _ (by omega))

theorem natDigitsF_ne_nil {fuel n : Nat} (h : 0 < fuel) : natDigitsF fuel n ≠ [] := by
  cases fuel with
  | zero => omega
  | succ fuel =>
    simp only [natDigitsF]
    by_cases hn : n < 10
    · rw [if_pos hn]; intro hc; cases hc
    · rw [if_neg hn]
      intro hc
      cases List.append_eq_nil.mp hc |>.2

theorem digitsVal_append_singleton (l : List Char) (c : Char) :
    digitsVal (l ++ [c]) = digitsVal l * 10 + (c.toNat - Char.toNat (Char.ofNat 48)) := by
  simp only [digitsVal, List.foldl_append, List.foldl_cons, List.foldl_nil]

theorem digitsVal_natDigitsF : ∀ fuel n, n < fuel → digitsVal (natDigitsF fuel n) = n := by
  intro fuel
  induction fuel with
  | zero => intro n h; omega
  | succ fuel ih =>
    intro n h
    simp only [natDigitsF]
    by_cases hn : n < 10
    · rw [if_pos hn]
      interval_cases n <;> decide
    · rw [if_neg hn]
      have hdiv : n / 10 < fuel := by
        have h1 : n / 10 < n := Nat.div_lt_self (by omega) (by omega)
        omega
      rw [digitsVal_append_singleton, ih _ hdiv,
        digitChar_val (Nat.mod_lt _ (show 0 < 10 by omega))]
      omega

theorem digitsVal_zero_pad (k : Nat) (l : List Char) :
    digitsVal (List.replicate k '0' ++ l) = digitsVal l := by
  induction k with
  | zero => rfl
  | succ k ih =>
    simp only [List.replicate_succ, List.cons_append, digitsVal, List.foldl_cons]
    exact ih

theorem pad3_digits (n : Nat) : ∀ c ∈ (pad3 n).data, isDigitC c = true := by
  intro c hc
  simp only [pad3, natDec] at hc
  split at hc
  · rw [show (String.mk (List.replicate (3 - (String.mk (natDigitsF (n + 1) n)).length) '0')
        ++ String.mk (natDigitsF (n + 1) n)).data
      = List.replicate (3 - (String.mk (natDigitsF (n + 1) n)).length) '0'
        ++ natDigitsF (n + 1) n from rfl] at hc
    rcases List.mem_append.mp hc with h | h
    · rw [List.eq_of_mem_replicate h]; rfl
    · exact natDigitsF_digits _ n c h
  · exact natDigitsF_digits _ n c hc

theorem pad3_ne_nil (n : Nat) : (pad3 n).data ≠ [] := by
  simp only [pad3, natDec]
  split
  · rw [show (String.mk (List.replicate (3 - (String.mk (natDigitsF (n + 1) n)).length) '0')
        ++ String.mk (natDigitsF (n + 1) n)).data
      = List.replicate (3 - (String.mk (natDigitsF (n + 1) n)).length) '0'
        ++ natDigitsF (n + 1) n from rfl]
    intro hc
    exact natDigitsF_ne_nil (Nat.succ_pos n) (List.append_eq_nil.mp hc).2
  · exact natDigitsF_ne_nil (Nat.succ_pos n)

theorem digitsVal_pad3 (n : Nat) : digitsVal (pad3 n).data = n := by
  simp only [pad3, natDec]
  split
  · rw [show (String.mk (List.replicate (3 - (String.mk (natDigitsF (n + 1) n)).length) '0')
        ++ String.mk (natDigitsF (n + 1) n)).data
      = List.replicate (3 - (String.mk (natDigitsF (n + 1) n)).length) '0'
        ++ natDigitsF (n + 1) n from rfl]
    rw [digitsVal_zero_pad]
    exact digitsVal_natDigitsF _ n (Nat.lt_succ_self n)
  · exact digitsVal_natDigitsF _ n (Nat.lt_succ_self n)

theorem endsWithMd_append (x : String) : endsWithMd (x ++ ".md") = true := by
  simp only [endsWithMd, strDataAppend]
  rw [List.reverse_append,
    show (['.', 'm', 'd'] : List Char).reverse = ['d', 'm', '.'] from rfl]
  rfl

theorem matchIdFile_mk (pfx : String) (k : Nat) :
    matchIdFile pfx ((pfx ++ "-" ++ pad3 k) ++ ".md") = some k := by
  have hdata : ((pfx ++ "-" ++ pad3 k) ++ ".md").data
      = (pfx.data ++ ['-']) ++ ((pad3 k).data ++ ['.', 'm', 'd']) := by
    simp only [strDataAppend]
    exact List.append_assoc _ _ _
  simp only [matchIdFile, hdata, dropPrefixQ_append]
  obtain ⟨ht, hd⟩ := takeWhile_all_append isDigitC (pad3_digits k)
    (show isDigitC '.' = false by decide) ['m', 'd']
  rw [ht, hd]
  rw [if_pos]
  · rw [digitsVal_pad3]
  · cases hx : (pad3 k).data with
    | nil => exact absurd hx (pad3_ne_nil k)
    | cons c cs => rfl

theorem foldl_max_init_le : ∀ (l : List Nat) (a : Nat), a ≤ l.foldl max a := by
  intro l
  induction l with
  | nil => intro a; exact Nat.le_refl a
  | cons x xs ih =>
    intro a
    exact Nat.le_trans (Nat.le_max_left a x) (ih (max a x))

theorem foldl_max_mono : ∀ (l : List Nat) {a b : Nat}, a ≤ b →
    l.foldl max a ≤ l.foldl max b := by
  intro l
  induction l with
  | nil => intro a b h; exact h
  | cons x xs ih =>
    intro a b h
    exact ih (max_le_max h (Nat.le_refl x))

theorem foldl_max_le_of_mem {l : List Nat} {x : Nat} (h : x ∈ l) :
    x ≤ l.foldl max 0 := by
  induction l with
  | nil => cases h
  | cons y ys ih =>
    rcases List.mem_cons.mp h with rfl | h'
    · exact Nat.le_trans (Nat.le_trans (Nat.le_max_right 0 x)
        (foldl_max_init_le ys (max 0 x))) (Nat.le_refl _)
    · exact Nat.le_trans (ih h') (foldl_max_mono ys (Nat.zero_le (max 0 y)))

theorem assocSet_fresh {κ α : Type} [BEq κ] {l : List (κ × α)} {k : κ} {v : α}
    (h : l.any (fun e => e.1 == k) = false) : assocSet l k v = l ++ [(k, v)] := by
  unfold assocSet
  rw [if_neg]
  rw [h]
  intro hc
  cases hc

theorem maxIdNum_fresh_write (s : StoreState)
    (idx : List (String × DocumentFrontmatter)) (dir pfx fname : String)
    (df : DocFile) {k : Nat}
    (hmd : endsWithMd fname = true)
    (hmatch : matchIdFile pfx fname = some k)
    (hk : maxIdNum s dir pfx < k) :
    maxIdNum ⟨writeFile s.files dir fname df, idx⟩ dir pfx = k := by
  have hfresh : s.files.any (fun e => e.1 == (dir, fname)) = false := by
    cases ha : s.files.any (fun e => e.1 == (dir, fname)) with
    | false => rfl
    | true =>
      obtain ⟨e, he, hbe⟩ := List.any_eq_true.mp ha
      have he1 : e.1 = (dir, fname) := eq_of_beq hbe
      have hmem : (fname, e.2) ∈ dirFilesMd s dir := by
        refine List.mem_map.mpr ⟨e, List.mem_filter.mpr ⟨he, ?_⟩, ?_⟩
        · rw [he1]
          simp only [beq_self_eq_true, hmd, Bool.and_self]
        · rw [he1]
      have hle : k ≤ maxIdNum s dir pfx := by
        refine foldl_max_le_of_mem ?_
        exact List.mem_filterMap.mpr ⟨(fname, e.2), hmem, hmatch⟩
      omega
  have happ : writeFile s.files dir fname df = s.files ++ [((dir, fname), df)] :=
    assocSet_fresh hfresh
  have hsing : List.filter (fun e => e.1.1 == dir && endsWithMd e.1.2)
      ([((dir, fname), df)] : List ((String × String) × DocFile))
      = [((dir, fname), df)] := by
    rw [List.filter_cons, if_pos]
    · rfl
    · simp only [beq_self_eq_true, hmd, Bool.and_self]
  have hfm : List.filterMap (fun nf => matchIdFile pfx nf.1)
      ([(fname, df)] : List (String × DocFile)) = [k] := by
    simp only [List.filterMap_cons, hmatch, List.filterMap_nil]
  simp only [maxIdNum, dirFilesMd] at hk ⊢
  rw [happ, List.filter_append, hsing, List.map_append, List.filterMap_append]
  rw [show List.map (fun e => (e.1.2, e.2))
      ([((dir, fname), df)] : List ((String × String) × DocFile))
      = [(fname, df)] from rfl]
  rw [hfm, List.foldl_append]
  exact Nat.max_eq_right (Nat.le_of_lt hk)

/-- C4 fails on the code for the legacy `meeting` type: its files are
named by date and slug, never `M-<n>.md`, so `nextId` sees no matching
file and returns `M-001` again right after a successful `create` that
allocated `M-001`. -/
theorem claim4_counterexample :
    nextId commonConfig emptyStore "meeting" = .ok "M-001" ∧
    (create commonConfig emptyStore "meeting" {} "" "2024-05-05T10:00:00Z").2
      = .ok ⟨⟨"M-001", "Untitled", "meeting", "open", "2024-05-05T10:00:00Z",
          "2024-05-05T10:00:00Z", none, none, none, none, []⟩, ""⟩ ∧
    nextId commonConfig
        (create commonConfig emptyStore "meeting" {} "" "2024-05-05T10:00:00Z").1
        "meeting" = .ok "M-001" := by
  refine ⟨by decide, by decide, by decide⟩

/-- Claim C4 (amended): `nextId` is a pure function of the store state, so
two calls with no intervening write agree; and for every registered type
other than the legacy `meeting` type, a successful `create` writes
`<pfx>-<pad3 (max+1)>.md`, after which `nextId` returns the successor
identifier `<pfx>-<pad3 (max+2)>`. -/
theorem claim4_monotonic_allocation_amended
    (c : StoreConfig) (s : StoreState) (t : String) (p : PartialFrontmatter)
    (content now pfx dir : String)
    (hpfx : c.idPrefixes.lookup t = some pfx)
    (hdir : c.typeDirs.lookup t = some dir)
    (hmeet : t ≠ "meeting") :
    nextId c s t = .ok (pfx ++ "-" ++ pad3 (maxIdNum s dir pfx + 1)) ∧
    (create c s t p content now).2 =
      .ok ⟨mergeFrontmatter (pfx ++ "-" ++ pad3 (maxIdNum s dir pfx + 1)) t now p,
        content⟩ ∧
    nextId c (create c s t p content now).1 t =
      .ok (pfx ++ "-" ++ pad3 (maxIdNum s dir pfx + 2)) := by
  have hnext : nextId c s t = .ok (pfx ++ "-" ++ pad3 (maxIdNum s dir pfx + 1)) := by
    simp only [nextId, hpfx, hdir]
  have hcreate : create c s t p content now =
      ({ files := writeFile s.files dir
            ((pfx ++ "-" ++ pad3 (maxIdNum s dir pfx + 1)) ++ ".md")
            ⟨mergeFrontmatter (pfx ++ "-" ++ pad3 (maxIdNum s dir pfx + 1)) t now p,
              content⟩,
          index := indexSet s.index (pfx ++ "-" ++ pad3 (maxIdNum s dir pfx + 1))
            (mergeFrontmatter (pfx ++ "-" ++ pad3 (maxIdNum s dir pfx + 1)) t now p) },
        .ok ⟨mergeFrontmatter (pfx ++ "-" ++ pad3 (maxIdNum s dir pfx + 1)) t now p,
          content⟩) := by
    simp only [create, hnext, hdir]
    rw [if_neg hmeet]
  refine ⟨hnext, ?_, ?_⟩
  · rw [hcreate]
  · rw [hcreate]
    simp only [nextId, hpfx, hdir]
    rw [maxIdNum_fresh_write s _ dir pfx _ _
      (endsWithMd_append (pfx ++ "-" ++ pad3 (maxIdNum s dir pfx + 1)))
      (matchIdFile_mk pfx (maxIdNum s dir pfx + 1)) (Nat.lt_succ_self _)]

theorem claim4_monotonic_allocation_amended_witness :
    nextId commonConfig emptyStore "decision" =
        .ok ("D" ++ "-" ++ pad3 (maxIdNum emptyStore "decisions" "D" + 1)) ∧
    (create commonConfig emptyStore "decision" {} "" "2024-01-01T00:00:00Z").2 =
      .ok ⟨mergeFrontmatter ("D" ++ "-" ++ pad3 (maxIdNum emptyStore "decisions" "D" + 1))
        "decision" "2024-01-01T00:00:00Z" {}, ""⟩ ∧
    nextId commonConfig
        (create commonConfig emptyStore "decision" {} "" "2024-01-01T00:00:00Z").1
        "decision" =
      .ok ("D" ++ "-" ++ pad3 (maxIdNum emptyStore "decisions" "D" + 2)) :=
  claim4_monotonic_allocation_amended commonConfig emptyStore "decision" {} ""
    "2024-01-01T00:00:00Z" "D" "decisions" (by decide) (by decide) (by decide)

/-! ### Identifier uniqueness (claim C1) -/

theorem lookup_mem {α : Type} {l : List (String × α)} {k : String} {v : α}
    (h : l.lookup k = some v) : (k, v) ∈ l := by
  induction l with
  | nil => cases h
  | cons q rest ih =>
    obtain ⟨qk, qv⟩ := q
    simp only [List.lookup] at h
    cases hx : (k == qk) with
    | true =>
      rw [hx] at h
      obtain rfl := eq_of_beq hx
      obtain rfl := Option.some.inj h
      exact List.mem_cons_self _ _
    | false =>
      rw [hx] at h
      exact List.mem_cons_of_mem _ (ih h)

theorem strAppend_cancel_right {a b c : String} (h : a ++ c = b ++ c) : a = b := by
  have hd : a.data ++ c.data = b.data ++ c.data := by
    rw [← strDataAppend, ← strDataAppend, h]
  have hab : a.data = b.data := List.append_cancel_right hd
  calc a = String.mk a.data := rfl
    _ = String.mk b.data := by rw [hab]
    _ = b := rfl

theorem idMatch_mk (pfx : String) (k : Nat) :
    idMatch pfx (pfx ++ "-" ++ pad3 k) = some k := by
  have hdata : (pfx ++ "-" ++ pad3 k).data = (pfx.data ++ ['-']) ++ (pad3 k).data := by
    simp only [strDataAppend]
  simp only [idMatch, hdata, dropPrefixQ_append]
  rw [if_pos]
  · rw [digitsVal_pad3]
  · rw [Bool.and_eq_true]
    constructor
    · cases hx : (pad3 k).data with
      | nil => exact absurd hx (pad3_ne_nil k)
      | cons c cs => rfl
    · exact List.all_eq_true.mpr (fun c hc => pad3_digits k c hc)

theorem append_dash_digits_inj : ∀ {a1 a2 ds1 ds2 : List Char},
    (∀ c ∈ ds1, isDigitC c = true) → (∀ c ∈ ds2, isDigitC c = true) →
    a1 ++ '-' :: ds1 = a2 ++ '-' :: ds2 → a1 = a2 ∧ ds1 = ds2 := by
  intro a1
  induction a1 with
  | nil =>
    intro a2 ds1 ds2 h1 _ he
    cases a2 with
    | nil =>
      simp only [List.nil_append, List.cons.injEq] at he
      exact ⟨rfl, he.2⟩
    | cons d a2t =>
      simp only [List.nil_append, List.cons_append, List.cons.injEq] at he
      have : isDigitC '-' = true := by
        refine h1 '-' ?_
        rw [he.2]
        exact List.mem_append_right _ (List.mem_cons_self _ _)
      cases this
  | cons c a1t ih =>
    intro a2 ds1 ds2 h1 h2 he
    cases a2 with
    | nil =>
      simp only [List.nil_append, List.cons_append, List.cons.injEq] at he
      have : isDigitC '-' = true := by
        refine h2 '-' ?_
        rw [← he.2]
        exact List.mem_append_right _ (List.mem_cons_self _ _)
      cases this
    | cons d a2t =>
      simp only [List.cons_append, List.cons.injEq] at he
      obtain ⟨hcd, hrest⟩ := he
      obtain ⟨hx, hy⟩ := ih h1 h2 hrest
      exact ⟨by rw [hcd, hx], hy⟩

theorem idMatch_some_decomp {pfx id : String} {n : Nat}
    (h : idMatch pfx id = some n) :
    ∃ ds, ds ≠ [] ∧ id.data = pfx.data ++ '-' :: ds ∧
      (∀ c ∈ ds, isDigitC c = true) ∧ n = digitsVal ds := by
  simp only [idMatch] at h
  split at h
  next => cases h
  next rest hd =>
    split at h
    next hcond =>
      rw [Bool.and_eq_true] at hcond
      refine ⟨rest, ?_, ?_, ?_, (Option.some.inj h).symm⟩
      · cases rest with
        | nil => cases hcond.1
        | cons c cs => intro hx; cases hx
      · have hdd := dropPrefixQ_eq_some hd
        rw [hdd, List.append_assoc, List.singleton_append]
      · exact fun c hc => List.all_eq_true.mp hcond.2 c hc
    next => cases h

theorem idMatch_unique {p1 p2 id : String} {n1 n2 : Nat}
    (h1 : idMatch p1 id = some n1) (h2 : idMatch p2 id = some n2) :
    p1 = p2 ∧ n1 = n2 := by
  obtain ⟨ds1, _, he1, hd1, hn1⟩ := idMatch_some_decomp h1
  obtain ⟨ds2, _, he2, hd2, hn2⟩ := idMatch_some_decomp h2
  have he : p1.data ++ '-' :: ds1 = p2.data ++ '-' :: ds2 := by
    rw [← he1, ← he2]
  obtain ⟨hp, hds⟩ := append_dash_digits_inj hd1 hd2 he
  constructor
  · calc p1 = String.mk p1.data := rfl
      _ = String.mk p2.data := by rw [hp]
      _ = p2 := rfl
  · rw [hn1, hn2, hds]

/-- Coherence of a store configuration: two registered types that share an
id prefix resolve to the same directory (so numbering scans see every file
of that prefix).  Holds for the core config and `commonConfig`. -/
def configOk (c : StoreConfig) : Bool :=
  c.idPrefixes.all (fun e1 => c.idPrefixes.all (fun e2 =>
    !(e1.2 == e2.2) || (c.typeDirs.lookup e1.1 == c.typeDirs.lookup e2.1)))

/-- The calls under which identifier uniqueness is provable: no legacy
`meeting` documents, no caller-supplied `id` override in `create`, and
imported identifiers shaped `<own prefix>-<digits>`. -/
def goodCall (c : StoreConfig) : StoreCall → Bool
  | .mkDoc t p _ _ => !(t == "meeting") && p.id.isNone
  | .impDoc t fm _ =>
    !(t == "meeting") &&
      (match c.idPrefixes.lookup t with
       | some pfx => (idMatch pfx fm.id).isSome
       | none => false)

/-- Store invariant: every file sits in a registered type's directory, is
named `<id>.md` after its own frontmatter id, that id is `<pfx>-<digits>`
for the type's prefix — and all ids on disk are distinct. -/
def StoreInv (c : StoreConfig) (s : StoreState) : Prop :=
  (∀ e ∈ s.files, ∃ t pfx n,
      c.typeDirs.lookup t = some e.1.1 ∧
      c.idPrefixes.lookup t = some pfx ∧
      e.1.2 = e.2.fm.id ++ ".md" ∧
      idMatch pfx e.2.fm.id = some n) ∧
  (storeIds s).Nodup

theorem mem_dirFilesMd {s : StoreState} {e : (String × String) × DocFile}
    (he : e ∈ s.files) (hmd : endsWithMd e.1.2 = true) :
    (e.1.2, e.2) ∈ dirFilesMd s e.1.1 := by
  refine List.mem_map.mpr ⟨e, List.mem_filter.mpr ⟨he, ?_⟩, rfl⟩
  simp only [beq_self_eq_true, hmd, Bool.and_self]

theorem maxIdNum_ge {s : StoreState} {dir pfx fname : String} {df : DocFile}
    {k : Nat} (hmem : (fname, df) ∈ dirFilesMd s dir)
    (hmatch : matchIdFile pfx fname = some k) : k ≤ maxIdNum s dir pfx :=
  foldl_max_le_of_mem (List.mem_filterMap.mpr ⟨(fname, df), hmem, hmatch⟩)

theorem matchIdFile_of_idMatch {pfx id : String} {n : Nat}
    (h : idMatch pfx id = some n) : matchIdFile pfx (id ++ ".md") = some n := by
  obtain ⟨ds, hne, hdata, hdig, hn⟩ := idMatch_some_decomp h
  have hdata2 : (id ++ ".md").data
      = (pfx.data ++ ['-']) ++ (ds ++ ['.', 'm', 'd']) := by
    rw [strDataAppend, hdata]
    rw [List.append_assoc, List.append_assoc, List.singleton_append,
      List.cons_append]
  simp only [matchIdFile, hdata2, dropPrefixQ_append]
  obtain ⟨ht, hd⟩ := takeWhile_all_append isDigitC hdig
    (show isDigitC '.' = false by decide) ['m', 'd']
  rw [ht, hd, if_pos]
  · rw [hn]
  · rw [Bool.and_eq_true]
    constructor
    · cases ds with
      | nil => exact absurd rfl hne
      | cons c cs => rfl
    · rfl

theorem create_id_fresh (c : StoreConfig) {s : StoreState} {t pfx dir : String}
    (hc : configOk c = true)
    (hinv1 : ∀ e ∈ s.files, ∃ t2 pfx2 n2,
      c.typeDirs.lookup t2 = some e.1.1 ∧ c.idPrefixes.lookup t2 = some pfx2 ∧
      e.1.2 = e.2.fm.id ++ ".md" ∧ idMatch pfx2 e.2.fm.id = some n2)
    (hpq : c.idPrefixes.lookup t = some pfx)
    (hdq : c.typeDirs.lookup t = some dir) :
    ∀ e ∈ s.files, e.2.fm.id ≠ pfx ++ "-" ++ pad3 (maxIdNum s dir pfx + 1) := by
  intro e he hid
  obtain ⟨t2, pfx2, n2, hdt2, hpt2, hfn2, him2⟩ := hinv1 e he
  rw [hid] at him2
  obtain ⟨hpfx_eq, hn_eq⟩ :=
    idMatch_unique him2 (idMatch_mk pfx (maxIdNum s dir pfx + 1))
  simp only [configOk] at hc
  have hcc := List.all_eq_true.mp
    (List.all_eq_true.mp hc (t2, pfx2) (lookup_mem hpt2)) (t, pfx) (lookup_mem hpq)
  have hbe : (pfx2 == pfx) = true := beq_iff_eq.mpr hpfx_eq
  rw [show ((t2, pfx2).2 == (t, pfx).2) = true from hbe] at hcc
  simp only [Bool.not_true, Bool.false_or] at hcc
  have hdir_eq : c.typeDirs.lookup t2 = c.typeDirs.lookup t := eq_of_beq hcc
  rw [hdt2, hdq] at hdir_eq
  have he11 : e.1.1 = dir := Option.some.inj hdir_eq
  have hmd : endsWithMd e.1.2 = true := by
    rw [hfn2]
    exact endsWithMd_append _
  have hmem3 : (e.1.2, e.2) ∈ dirFilesMd s dir := by
    rw [← he11]
    exact mem_dirFilesMd he hmd
  have hmi : matchIdFile pfx e.1.2 = some (maxIdNum s dir pfx + 1) := by
    rw [hfn2, hid]
    exact matchIdFile_mk pfx _
  have := maxIdNum_ge hmem3 hmi
  omega

theorem storeInv_extend (c : StoreConfig) {s : StoreState} {t pfx dir id : String}
    {n : Nat} {df : DocFile} {idx : List (String × DocumentFrontmatter)}
    (hinv : StoreInv c s)
    (hpq : c.idPrefixes.lookup t = some pfx)
    (hdq : c.typeDirs.lookup t = some dir)
    (hdfid : df.fm.id = id)
    (him : idMatch pfx id = some n)
    (hfresh : ∀ e ∈ s.files, e.2.fm.id ≠ id) :
    StoreInv c ⟨writeFile s.files dir (id ++ ".md") df, idx⟩ := by
  have hkey : s.files.any (fun e => e.1 == (dir, id ++ ".md")) = false := by
    cases ha : s.files.any (fun e => e.1 == (dir, id ++ ".md")) with
    | false => rfl
    | true =>
      obtain ⟨e, he, hbe⟩ := List.any_eq_true.mp ha
      have he1 : e.1 = (dir, id ++ ".md") := eq_of_beq hbe
      obtain ⟨t2, pfx2, n2, _, _, hfn2, _⟩ := hinv.1 e he
      have hidmd : e.2.fm.id ++ ".md" = id ++ ".md" := by
        rw [← hfn2, he1]
      exact absurd (strAppend_cancel_right hidmd) (hfresh e he)
  have happ : writeFile s.files dir (id ++ ".md") df
      = s.files ++ [((dir, id ++ ".md"), df)] := assocSet_fresh hkey
  constructor
  · intro e he
    rw [show (⟨writeFile s.files dir (id ++ ".md") df, idx⟩ : StoreState).files
      = writeFile s.files dir (id ++ ".md") df from rfl, happ] at he
    rcases List.mem_append.mp he with h | h
    · exact hinv.1 e h
    · rcases List.mem_singleton.mp h with rfl
      refine ⟨t, pfx, n, hdq, hpq, ?_, ?_⟩
      · rw [hdfid]
      · rw [hdfid]
        exact him
  · have hids : storeIds ⟨writeFile s.files dir (id ++ ".md") df, idx⟩
        = storeIds s ++ [df.fm.id] := by
      simp only [storeIds, happ, List.map_append, List.map_cons, List.map_nil]
    rw [hids, List.nodup_append]
    refine ⟨hinv.2, List.nodup_singleton _, ?_⟩
    intro a ha hmem
    rcases List.mem_singleton.mp hmem with rfl
    obtain ⟨e, he, hae⟩ := List.mem_map.mp ha
    rw [hdfid] at hae
    exact hfresh e he hae

theorem create_inv (c : StoreConfig) {s s' : StoreState} {t : String}
    {p : PartialFrontmatter} {content now : String} {df : DocFile}
    (hc : configOk c = true) (hinv : StoreInv c s)
    (hmeet : t ≠ "meeting") (hpid : p.id = none)
    (hok : create c s t p content now = (s', .ok df)) :
    StoreInv c s' := by
  cases hpq : c.idPrefixes.lookup t with
  | none =>
    have hne : nextId c s t = .error ("Unknown document type: " ++ t) := by
      simp only [nextId, hpq]
    simp only [create, hne] at hok
    exact Except.noConfusion (congrArg Prod.snd hok)
  | some pfx =>
    cases hdq : c.typeDirs.lookup t with
    | none =>
      have hne : nextId c s t = .error ("Unknown document type: " ++ t) := by
        simp only [nextId, hpq, hdq]
      simp only [create, hne] at hok
      exact Except.noConfusion (congrArg Prod.snd hok)
    | some dir =>
      have hnext : nextId c s t
          = .ok (pfx ++ "-" ++ pad3 (maxIdNum s dir pfx + 1)) := by
        simp only [nextId, hpq, hdq]
      have hcr : create c s t p content now =
          ({ files := writeFile s.files dir
                ((pfx ++ "-" ++ pad3 (maxIdNum s dir pfx + 1)) ++ ".md")
                ⟨mergeFrontmatter (pfx ++ "-" ++ pad3 (maxIdNum s dir pfx + 1))
                  t now p, content⟩,
              index := indexSet s.index
                (pfx ++ "-" ++ pad3 (maxIdNum s dir pfx + 1))
                (mergeFrontmatter (pfx ++ "-" ++ pad3 (maxIdNum s dir pfx + 1))
                  t now p) },
            .ok ⟨mergeFrontmatter (pfx ++ "-" ++ pad3 (maxIdNum s dir pfx + 1))
              t now p, content⟩) := by
        simp only [create, hnext, hdq]
        rw [if_neg hmeet]
      rw [hcr, Prod.mk.injEq] at hok
      obtain ⟨hs', _⟩ := hok
      rw [← hs']
      refine storeInv_extend c hinv hpq hdq ?_ (idMatch_mk pfx _)
        (create_id_fresh c hc hinv.1 hpq hdq)
      simp only [mergeFrontmatter, hpid, Option.getD_none]

theorem import_inv (c : StoreConfig) {s s' : StoreState} {t pfx : String}
    {fm : DocumentFrontmatter} {content : String} {df : DocFile} {n : Nat}
    (hinv : StoreInv c s) (hmeet : t ≠ "meeting")
    (hpq : c.idPrefixes.lookup t = some pfx)
    (him : idMatch pfx fm.id = some n)
    (hok : importDocument c s t fm content = (s', .ok df)) :
    StoreInv c s' := by
  cases hdq : c.typeDirs.lookup t with
  | none =>
    simp only [importDocument, hdq] at hok
    exact Except.noConfusion (congrArg Prod.snd hok)
  | some dir =>
    cases hg : getDoc c s fm.id with
    | some d0 =>
      simp only [importDocument, hdq, hg] at hok
      exact Except.noConfusion (congrArg Prod.snd hok)
    | none =>
      have himp : importDocument c s t fm content =
          ({ files := writeFile s.files dir (fm.id ++ ".md") ⟨fm, content⟩,
              index := indexSet s.index fm.id fm }, .ok ⟨fm, content⟩) := by
        simp only [importDocument, hdq, hg]
        rw [if_neg hmeet]
      rw [himp, Prod.mk.injEq] at hok
      obtain ⟨hs', _⟩ := hok
      rw [← hs']
      simp only [getDoc] at hg
      have hfresh : ∀ e ∈ s.files, e.2.fm.id ≠ fm.id := by
        intro e he hid
        obtain ⟨t2, pfx2, n2, hdt2, hpt2, hfn2, him2⟩ := hinv.1 e he
        have hmd : endsWithMd e.1.2 = true := by
          rw [hfn2]
          exact endsWithMd_append _
        have hmem : (e.1.2, e.2) ∈ dirFilesMd s e.1.1 := mem_dirFilesMd he hmd
        have hdirs : dirFilesMd s e.1.1
            ∈ c.typeDirs.map (fun td => dirFilesMd s td.2) :=
          List.mem_map.mpr ⟨(t2, e.1.1), lookup_mem hdt2, rfl⟩
        have hflat : (e.1.2, e.2)
            ∈ (c.typeDirs.map (fun td => dirFilesMd s td.2)).flatten :=
          List.mem_flatten.mpr ⟨_, hdirs, hmem⟩
        have hsnd : e.2
            ∈ ((c.typeDirs.map (fun td => dirFilesMd s td.2)).flatten).map Prod.snd :=
          List.mem_map_of_mem Prod.snd hflat
        exact List.find?_eq_none.mp hg e.2 hsnd (beq_iff_eq.mpr hid)
      exact storeInv_extend c hinv hpq hdq rfl him hfresh

theorem runCalls_inv (c : StoreConfig) (hc : configOk c = true) :
    ∀ (calls : List StoreCall) (s s' : StoreState), StoreInv c s →
    calls.all (goodCall c) = true → runCalls c s calls = some s' →
    StoreInv c s' := by
  intro calls
  induction calls with
  | nil =>
    intro s s' hinv _ hrun
    obtain rfl := Option.some.inj hrun
    exact hinv
  | cons call rest ih =>
    intro s s' hinv hgood hrun
    rw [List.all_cons, Bool.and_eq_true] at hgood
    simp only [runCalls] at hrun
    cases hex : execCall c s call with
    | mk s1 r =>
      rw [hex] at hrun
      cases r with
      | error e => cases hrun
      | ok df =>
        have hinv1 : StoreInv c s1 := by
          cases call with
          | mkDoc t p content now =>
            have hg := hgood.1
            rw [show goodCall c (.mkDoc t p content now)
              = (!(t == "meeting") && p.id.isNone) from rfl,
              Bool.and_eq_true] at hg
            have hmeet : t ≠ "meeting" := by
              intro hx
              rw [hx] at hg
              cases hg.1
            have hpid : p.id = none := by
              cases hx : p.id with
              | none => rfl
              | some v =>
                rw [hx] at hg
                cases hg.2
            exact create_inv c hc hinv hmeet hpid hex
          | impDoc t fm content =>
            have hg := hgood.1
            rw [show goodCall c (.impDoc t fm content)
              = (!(t == "meeting") &&
                  (match c.idPrefixes.lookup t with
                   | some pfx => (idMatch pfx fm.id).isSome
                   | none => false)) from rfl,
              Bool.and_eq_true] at hg
            have hmeet : t ≠ "meeting" := by
              intro hx
              rw [hx] at hg
              cases hg.1
            cases hpq : c.idPrefixes.lookup t with
            | none =>
              have hg2 := hg.2
              rw [hpq] at hg2
              cases hg2
            | some pfx =>
              have hg2 := hg.2
              rw [hpq] at hg2
              have hg3 : (idMatch pfx fm.id).isSome = true := hg2
              cases him : idMatch pfx fm.id with
              | none =>
                rw [him] at hg3
                cases hg3
              | some n =>
                exact import_inv c hinv hmeet hpq him hex
        exact ih s1 s' hinv1 hgood.2 hrun

/-- Two legacy `meeting` creations: both succeed and both are assigned
id `M-001`, because meeting files are named by date and slug and are
therefore invisible to `nextId`. -/
def demoMeetingCalls : List StoreCall :=
  [.mkDoc "meeting" {} "" "2024-05-05T10:00:00Z",
   .mkDoc "meeting" { title := some "Standup" } "" "2024-05-05T10:00:00Z"]

/-- C1 fails on the code: a sequence of two successful `create` calls for
the legacy `meeting` type leaves two documents in the store sharing the
identifier `M-001`. -/
theorem claim1_counterexample :
    (runCalls commonConfig emptyStore demoMeetingCalls).map storeIds
        = some ["M-001", "M-001"] ∧
    ¬ (["M-001", "M-001"] : List String).Nodup := by
  refine ⟨by decide, by decide⟩

/-- Claim C1 (amended): identifier uniqueness holds for every sequence of
successful `create`/`importDocument` calls from the empty store, provided
no call uses the legacy `meeting` type, no `create` call smuggles an `id`
through the partial frontmatter spread, every import id is shaped
`<own prefix>-<digits>`, and types sharing an id prefix share a directory
(`configOk`, true of the shipped configurations). -/
theorem claim1_identifier_uniqueness_amended
    (c : StoreConfig) (calls : List StoreCall) (s' : StoreState)
    (hc : configOk c = true)
    (hgood : calls.all (goodCall c) = true)
    (hrun : runCalls c emptyStore calls = some s') :
    (storeIds s').Nodup := by
  refine (runCalls_inv c hc calls emptyStore s' ⟨?_, ?_⟩ hgood hrun).2
  · intro e he
    exact absurd he (List.not_mem_nil e)
  · exact List.nodup_nil

/-- A well-behaved call sequence: two decision creations and one
action import with a properly shaped id. -/
def demoGoodCalls : List StoreCall :=
  [.mkDoc "decision" {} "" "2024-01-01T00:00:00Z",
   .mkDoc "decision" {} "" "2024-01-02T00:00:00Z",
   .impDoc "action" ⟨"A-007", "Imported", "action", "open",
     "2024-01-03T00:00:00Z", "2024-01-03T00:00:00Z", none, none, none, none, []⟩ ""]

def demoGoodState : StoreState :=
  match runCalls commonConfig emptyStore demoGoodCalls with
  | some s => s
  | none => emptyStore

theorem claim1_identifier_uniqueness_amended_witness :
    configOk commonConfig = true ∧
    demoGoodCalls.all (goodCall commonConfig) = true ∧
    runCalls commonConfig emptyStore demoGoodCalls = some demoGoodState ∧
    (storeIds demoGoodState).Nodup :=
  ⟨by decide, by decide, by decide,
    claim1_identifier_uniqueness_amended commonConfig demoGoodCalls demoGoodState
      (by decide) (by decide) (by decide)⟩

end Marvin
